import Mathlib

/-!
Verification of the kafky-event-driven-chat backend against its
natural-language specification.

The development shallowly embeds the JavaScript sources:

* `src/database.js` — the Event Log (`logEvent` / `getEventByLogId`, backed by
  the `event_log` table, payloads serialized with `JSON.stringify` and parsed
  back with `JSON.parse`), the read model (`addMessage` / `getChatHistory`,
  backed by the `messages` and `users` tables of `setup-db.js`) and the room
  authorization source (`getChatParticipants`, backed by the `chats` table).
* `src/event-bus.js` — the proxied `emit` of `EventBusWrapper`: optimistic
  delivery, then append to the Event Log, then delivery of the `-KAFKED`
  (confirmed) variant carrying `logId`; append failure is caught, logged as
  critical and swallowed.
* `src/persistence-service.js` — the Projector (`incoming-message-KAFKED`
  handler) and the `ChatDispatcher` (membership map `chatRooms`,
  `subscribe` / `unsubscribe` / `dispatch` and its event handlers).
* `src/server.js` — the Connection Gateway (`user.identify`, `chat.select`,
  `chat.message.new`, socket close), with the per-connection state `ws.userId`
  and `ws.chatId`, the identity index `clients`, and its takeover and
  authorization logic.

JavaScript values are embedded as follows: numbers that the program uses as
identifiers are `Nat`; JSON documents are the inductive `Json` below (the
value domain `JSON.stringify` / `JSON.parse` exchange in this program:
null, booleans, non-negative integers, strings, arrays, objects); JavaScript
`Set` becomes `Finset Nat`; `Map` becomes an association list, preserving
the insertion-order and entry-identity behavior the code relies on.
`domain-event.js` is not part of the sources and is modelled from the spec
where needed.
-/

namespace Kafky

/-! ## JSON values

The payload value domain of `JSON.stringify`/`JSON.parse` as used by
`logEvent` and `getEventByLogId` in `src/database.js`.  Object fields are
kept in order (JavaScript objects preserve insertion order, and
`JSON.stringify` emits fields in that order).  Strings are lists of Unicode
scalar values. -/

inductive Json where
  | null : Json
  | bool (b : Bool) : Json
  | num (n : Nat) : Json
  | str (s : List Char) : Json
  | arr (elems : List Json) : Json
  | obj (fields : List (List Char × Json)) : Json

/-! ## Serialization: the model of `JSON.stringify`

`natChars` renders a number in decimal (most significant digit first),
`escChar` applies exactly the character escapes `JSON.stringify` performs
(quote, backslash, and the control characters, with `\u00XX` as the generic
control escape), and the mutual `strChars` family renders a value with no
whitespace, as `JSON.stringify` does with no spacing argument. -/

def digitChar (n : Nat) : Char := Char.ofNat (48 + n)

def natCharsAux : Nat → Nat → List Char
  | 0, _ => []
  | fuel + 1, n =>
    if n < 10 then [digitChar n]
    else natCharsAux fuel (n / 10) ++ [digitChar (n % 10)]

def natChars (n : Nat) : List Char := natCharsAux (n + 1) n

def hexDigitChar (n : Nat) : Char :=
  if n < 10 then Char.ofNat (48 + n) else Char.ofNat (87 + n)

def escChar (c : Char) : List Char :=
  if c = '"' then ['\\', '"']
  else if c = '\\' then ['\\', '\\']
  else if c = '\x08' then ['\\', 'b']
  else if c = '\t' then ['\\', 't']
  else if c = '\n' then ['\\', 'n']
  else if c = '\x0c' then ['\\', 'f']
  else if c = '\r' then ['\\', 'r']
  else if c.toNat < 32 then
    ['\\', 'u', '0', '0', hexDigitChar (c.toNat / 16), hexDigitChar (c.toNat % 16)]
  else [c]

def escString (s : List Char) : List Char := (s.map escChar).flatten

mutual

def strChars : Json → List Char
  | .null => ['n', 'u', 'l', 'l']
  | .bool true => 't' :: ['r', 'u', 'e']
  | .bool false => 'f' :: ['a', 'l', 's', 'e']
  | .num n => natChars n
  | .str s => '"' :: escString s ++ ['"']
  | .arr xs => '[' :: elemsBody xs ++ [']']
  | .obj l => '\x7b' :: fieldsBody l ++ ['\x7d']

def elemsBody : List Json → List Char
  | [] => []
  | x :: xs => strChars x ++ elemsMore xs

def elemsMore : List Json → List Char
  | [] => []
  | x :: xs => ',' :: strChars x ++ elemsMore xs

def fieldsBody : List (List Char × Json) → List Char
  | [] => []
  | (k, v) :: l => '"' :: escString k ++ '"' :: ':' :: strChars v ++ fieldsMore l

def fieldsMore : List (List Char × Json) → List Char
  | [] => []
  | (k, v) :: l => ',' :: '"' :: escString k ++ '"' :: ':' :: strChars v ++ fieldsMore l

end

/-! ## Parsing: the model of `JSON.parse`

Restricted to the serialized forms `logEvent` ever stores: no leading
whitespace (the serializer emits none), numbers are non-negative integers.
The parser is a single function, structurally recursive on a fuel argument,
so that it evaluates by kernel reduction on concrete inputs. -/

def digitVal (c : Char) : Nat := c.toNat - 48

def parseNat (cs : List Char) : Option (Nat × List Char) :=
  let ds := cs.takeWhile Char.isDigit
  if ds.isEmpty then none
  else some (ds.foldl (fun a c => a * 10 + digitVal c) 0, cs.dropWhile Char.isDigit)

def hexVal (c : Char) : Option Nat :=
  if 48 ≤ c.toNat ∧ c.toNat ≤ 57 then some (c.toNat - 48)
  else if 97 ≤ c.toNat ∧ c.toNat ≤ 102 then some (c.toNat - 87)
  else if 65 ≤ c.toNat ∧ c.toNat ≤ 70 then some (c.toNat - 55)
  else none

def unescape1 : Char → Option Char
  | '"' => some '"'
  | '\\' => some '\\'
  | '/' => some '/'
  | 'b' => some '\x08'
  | 't' => some '\t'
  | 'n' => some '\n'
  | 'f' => some '\x0c'
  | 'r' => some '\r'
  | _ => none

def scanString : Nat → List Char → Option (List Char × List Char)
  | 0, _ => none
  | _ + 1, [] => none
  | fuel + 1, c :: cs =>
    if c = '"' then some ([], cs)
    else if c = '\\' then
      match cs with
      | [] => none
      | e :: cs2 =>
        if e = 'u' then
          match cs2 with
          | h1 :: h2 :: h3 :: h4 :: cs3 =>
            match hexVal h1, hexVal h2, hexVal h3, hexVal h4 with
            | some a, some b, some d, some g =>
              (scanString fuel cs3).map
                (fun r => (Char.ofNat (((a * 16 + b) * 16 + d) * 16 + g) :: r.1, r.2))
            | _, _, _, _ => none
          | _ => none
        else
          match unescape1 e with
          | some u => (scanString fuel cs2).map (fun r => (u :: r.1, r.2))
          | none => none
    else (scanString fuel cs).map (fun r => (c :: r.1, r.2))

/-- Parser mode: a JSON value, the inside of an array (all elements, or the
elements after the first), or the inside of an object. -/
inductive PMode where
  | val
  | elemsAll
  | elemsMore
  | fieldsAll
  | fieldsMore

/-- Parser intermediate result, indexed by mode. -/
inductive PRes where
  | v (x : Json)
  | es (xs : List Json)
  | fs (l : List (List Char × Json))

def parseStep : Nat → PMode → List Char → Option (PRes × List Char)
  | 0, _, _ => none
  | _ + 1, _, [] => none
  | fuel + 1, .val, c :: cs =>
    if c = 'n' then
      match cs with
      | 'u' :: 'l' :: 'l' :: rest => some (.v .null, rest)
      | _ => none
    else if c = 't' then
      match cs with
      | 'r' :: 'u' :: 'e' :: rest => some (.v (.bool true), rest)
      | _ => none
    else if c = 'f' then
      match cs with
      | 'a' :: 'l' :: 's' :: 'e' :: rest => some (.v (.bool false), rest)
      | _ => none
    else if c = '"' then
      match scanString (cs.length + 1) cs with
      | some (s, rest) => some (.v (.str s), rest)
      | none => none
    else if c = '[' then
      match parseStep fuel .elemsAll cs with
      | some (.es xs, rest) => some (.v (.arr xs), rest)
      | _ => none
    else if c = '\x7b' then
      match parseStep fuel .fieldsAll cs with
      | some (.fs l, rest) => some (.v (.obj l), rest)
      | _ => none
    else
      match parseNat (c :: cs) with
      | some (n, rest) => some (.v (.num n), rest)
      | none => none
  | fuel + 1, .elemsAll, c :: cs =>
    if c = ']' then some (.es [], cs)
    else
      match parseStep fuel .val (c :: cs) with
      | some (.v x, rest1) =>
        match parseStep fuel .elemsMore rest1 with
        | some (.es xs, rest2) => some (.es (x :: xs), rest2)
        | _ => none
      | _ => none
  | fuel + 1, .elemsMore, c :: cs =>
    if c = ']' then some (.es [], cs)
    else if c = ',' then
      match parseStep fuel .val cs with
      | some (.v x, rest1) =>
        match parseStep fuel .elemsMore rest1 with
        | some (.es xs, rest2) => some (.es (x :: xs), rest2)
        | _ => none
      | _ => none
    else none
  | fuel + 1, .fieldsAll, c :: cs =>
    if c = '\x7d' then some (.fs [], cs)
    else if c = '"' then
      match scanString (cs.length + 1) cs with
      | some (k, rest1) =>
        match rest1 with
        | ':' :: rest2 =>
          match parseStep fuel .val rest2 with
          | some (.v x, rest3) =>
            match parseStep fuel .fieldsMore rest3 with
            | some (.fs l, rest4) => some (.fs ((k, x) :: l), rest4)
            | _ => none
          | _ => none
        | _ => none
      | none => none
    else none
  | fuel + 1, .fieldsMore, c :: cs =>
    if c = '\x7d' then some (.fs [], cs)
    else if c = ',' then
      match cs with
      | '"' :: cs2 =>
        match scanString (cs2.length + 1) cs2 with
        | some (k, rest1) =>
          match rest1 with
          | ':' :: rest2 =>
            match parseStep fuel .val rest2 with
            | some (.v x, rest3) =>
              match parseStep fuel .fieldsMore rest3 with
              | some (.fs l, rest4) => some (.fs ((k, x) :: l), rest4)
              | _ => none
            | _ => none
          | _ => none
        | none => none
      | _ => none
    else none

/-- Model of `JSON.parse`: parse a complete document, rejecting trailing
garbage (as `JSON.parse` does). -/
def parseJson (cs : List Char) : Option Json :=
  match parseStep (cs.length + 1) .val cs with
  | some (.v x, []) => some x
  | _ => none

/-! ## Round-trip lemmas: `JSON.parse` inverts `JSON.stringify`

These support the Event Log claims: what `logEvent` stores, `getEventByLogId`
recovers. -/

/-- Heads that may legally follow a serialized number (nothing, or a
non-digit delimiter). -/
def noDigitHead : List Char → Bool
  | [] => true
  | c :: _ => !c.isDigit

theorem natCharsAux_irrel (f : Nat) : ∀ g n, n < f → n < g →
    natCharsAux f n = natCharsAux g n := by
  induction f with
  | zero => intro g n h; omega
  | succ f ih =>
    intro g n hf hg
    cases g with
    | zero => omega
    | succ g =>
      simp only [natCharsAux]
      by_cases h10 : n < 10
      · simp [h10]
      · have hdiv : n / 10 < n := Nat.div_lt_self (by omega) (by omega)
        simp only [h10, if_false]
        congr 1
        exact ih g (n / 10) (by omega) (by omega)

theorem natCharsAux_digits (f : Nat) : ∀ n, n < f →
    ∀ c ∈ natCharsAux f n, c.isDigit = true := by
  induction f with
  | zero => intro n h; omega
  | succ f ih =>
    intro n hf c hc
    simp only [natCharsAux] at hc
    by_cases h10 : n < 10
    · simp [h10] at hc
      subst hc
      unfold digitChar
      interval_cases n <;> decide
    · have hdiv : n / 10 < n := Nat.div_lt_self (by omega) (by omega)
      simp only [h10, if_false, List.mem_append, List.mem_singleton] at hc
      rcases hc with hc | hc
      · exact ih (n / 10) (by omega) c hc
      · subst hc
        unfold digitChar
        have : n % 10 < 10 := Nat.mod_lt _ (by omega)
        interval_cases h : n % 10 <;> decide

theorem natCharsAux_ne_nil (f n : Nat) (h : n < f) : natCharsAux f n ≠ [] := by
  match f, h with
  | f + 1, _ =>
    simp only [natCharsAux]
    by_cases h10 : n < 10 <;> simp [h10]

theorem digitVal_digitChar (n : Nat) (h : n < 10) : digitVal (digitChar n) = n := by
  unfold digitVal digitChar
  interval_cases n <;> decide

theorem natCharsAux_foldl (f : Nat) : ∀ n a, n < f →
    (natCharsAux f n).foldl (fun a c => a * 10 + digitVal c) a
      = a * 10 ^ (natCharsAux f n).length + n := by
  induction f with
  | zero => intro n a h; omega
  | succ f ih =>
    intro n a hf
    simp only [natCharsAux]
    by_cases h10 : n < 10
    · simp only [h10, if_true, List.foldl_cons, List.foldl_nil, List.length_cons,
        List.length_nil, pow_one, zero_add]
      rw [digitVal_digitChar n h10]
    · have hdiv : n / 10 < n := Nat.div_lt_self (by omega) (by omega)
      simp only [h10, if_false, List.foldl_append, List.foldl_cons, List.foldl_nil,
        List.length_append, List.length_cons, List.length_nil]
      rw [ih (n / 10) a (by omega)]
      rw [digitVal_digitChar (n % 10) (Nat.mod_lt _ (by omega))]
      have hpow : a * 10 ^ ((natCharsAux f (n / 10)).length + (0 + 1))
          = a * 10 ^ (natCharsAux f (n / 10)).length * 10 := by
        rw [pow_add]; ring
      rw [hpow]
      have := Nat.div_add_mod n 10
      ring_nf
      omega

theorem natChars_digits (n : Nat) : ∀ c ∈ natChars n, c.isDigit = true :=
  natCharsAux_digits (n + 1) n (by omega)

theorem natChars_ne_nil (n : Nat) : natChars n ≠ [] :=
  natCharsAux_ne_nil (n + 1) n (by omega)

theorem natChars_foldl (n : Nat) :
    (natChars n).foldl (fun a c => a * 10 + digitVal c) 0 = n := by
  have := natCharsAux_foldl (n + 1) n 0 (by omega)
  simpa using this

theorem takeWhile_append_all {α : Type} (p : α → Bool) (l₁ l₂ : List α)
    (h : ∀ c ∈ l₁, p c = true) :
    (l₁ ++ l₂).takeWhile p = l₁ ++ l₂.takeWhile p := by
  induction l₁ with
  | nil => simp
  | cons a l ih =>
    simp only [List.cons_append, List.takeWhile_cons]
    rw [h a (by simp)]
    simp only [if_true]
    rw [ih (fun c hc => h c (by simp [hc]))]

theorem dropWhile_append_all {α : Type} (p : α → Bool) (l₁ l₂ : List α)
    (h : ∀ c ∈ l₁, p c = true) :
    (l₁ ++ l₂).dropWhile p = l₂.dropWhile p := by
  induction l₁ with
  | nil => simp
  | cons a l ih =>
    simp only [List.cons_append, List.dropWhile_cons]
    rw [h a (by simp)]
    simp only [if_true]
    exact ih (fun c hc => h c (by simp [hc]))

theorem parseNat_natChars (n : Nat) (rest : List Char) (hrest : noDigitHead rest = true) :
    parseNat (natChars n ++ rest) = some (n, rest) := by
  have htail : rest.takeWhile Char.isDigit = [] ∧ rest.dropWhile Char.isDigit = rest := by
    cases rest with
    | nil => simp
    | cons c cs =>
      simp only [noDigitHead, Bool.not_eq_true'] at hrest
      simp [List.takeWhile_cons, List.dropWhile_cons, hrest]
  unfold parseNat
  rw [takeWhile_append_all _ _ _ (natChars_digits n),
      dropWhile_append_all _ _ _ (natChars_digits n), htail.1, htail.2,
      List.append_nil]
  have hne : (natChars n).isEmpty = false := by
    cases h : natChars n with
    | nil => exact absurd h (natChars_ne_nil n)
    | cons a l => rfl
  simp only [hne, Bool.false_eq_true, if_false]
  rw [natChars_foldl n]

theorem hexVal_hexDigitChar (k : Nat) (h : k < 16) : hexVal (hexDigitChar k) = some k := by
  unfold hexVal hexDigitChar
  interval_cases k <;> decide

theorem length_escString_ge (s : List Char) : s.length ≤ (escString s).length := by
  induction s with
  | nil => simp [escString]
  | cons c cs ih =>
    simp only [escString, List.map_cons, List.flatten_cons, List.length_append,
      List.length_cons] at *
    have : 1 ≤ (escChar c).length := by
      unfold escChar
      repeat' split
      all_goals simp
    omega

theorem scanString_esc (s : List Char) : ∀ fuel rest, s.length + 1 ≤ fuel →
    scanString fuel (escString s ++ '"' :: rest) = some (s, rest) := by
  induction s with
  | nil =>
    intro fuel rest hf
    match fuel, hf with
    | fuel + 1, _ => rfl
  | cons c cs ih =>
    intro fuel rest hf
    cases fuel with
    | zero => simp only [List.length_cons] at hf; omega
    | succ fuel =>
      have ihc := ih fuel rest (by simp only [List.length_cons] at hf; omega)
      show scanString (fuel + 1) ((escChar c ++ escString cs) ++ '"' :: rest) = _
      rw [List.append_assoc]
      unfold escChar
      by_cases h1 : c = '"'
      · subst h1
        rw [if_pos (by trivial)]
        show scanString (fuel + 1) ('\\' :: '"' :: (escString cs ++ '"' :: rest)) = _
        rw [show scanString (fuel + 1) ('\\' :: '"' :: (escString cs ++ '"' :: rest))
            = (scanString fuel (escString cs ++ '"' :: rest)).map
                (fun r => ('"' :: r.1, r.2)) from rfl]
        rw [ihc]
        rfl
      · rw [if_neg h1]
        by_cases h2 : c = '\\'
        · subst h2
          rw [if_pos (by trivial)]
          show scanString (fuel + 1) ('\\' :: '\\' :: (escString cs ++ '"' :: rest)) = _
          rw [show scanString (fuel + 1) ('\\' :: '\\' :: (escString cs ++ '"' :: rest))
              = (scanString fuel (escString cs ++ '"' :: rest)).map
                  (fun r => ('\\' :: r.1, r.2)) from rfl]
          rw [ihc]
          rfl
        · rw [if_neg h2]
          by_cases h3 : c = '\x08'
          · subst h3
            rw [if_pos (by trivial)]
            show scanString (fuel + 1) ('\\' :: 'b' :: (escString cs ++ '"' :: rest)) = _
            rw [show scanString (fuel + 1) ('\\' :: 'b' :: (escString cs ++ '"' :: rest))
                = (scanString fuel (escString cs ++ '"' :: rest)).map
                    (fun r => ('\x08' :: r.1, r.2)) from rfl]
            rw [ihc]
            rfl
          · rw [if_neg h3]
            by_cases h4 : c = '\t'
            · subst h4
              rw [if_pos (by trivial)]
              show scanString (fuel + 1) ('\\' :: 't' :: (escString cs ++ '"' :: rest)) = _
              rw [show scanString (fuel + 1) ('\\' :: 't' :: (escString cs ++ '"' :: rest))
                  = (scanString fuel (escString cs ++ '"' :: rest)).map
                      (fun r => ('\t' :: r.1, r.2)) from rfl]
              rw [ihc]
              rfl
            · rw [if_neg h4]
              by_cases h5 : c = '\n'
              · subst h5
                rw [if_pos (by trivial)]
                show scanString (fuel + 1) ('\\' :: 'n' :: (escString cs ++ '"' :: rest)) = _
                rw [show scanString (fuel + 1) ('\\' :: 'n' :: (escString cs ++ '"' :: rest))
                    = (scanString fuel (escString cs ++ '"' :: rest)).map
                        (fun r => ('\n' :: r.1, r.2)) from rfl]
                rw [ihc]
                rfl
              · rw [if_neg h5]
                by_cases h6 : c = '\x0c'
                · subst h6
                  rw [if_pos (by trivial)]
                  show scanString (fuel + 1) ('\\' :: 'f' :: (escString cs ++ '"' :: rest)) = _
                  rw [show scanString (fuel + 1)
                        ('\\' :: 'f' :: (escString cs ++ '"' :: rest))
                      = (scanString fuel (escString cs ++ '"' :: rest)).map
                          (fun r => ('\x0c' :: r.1, r.2)) from rfl]
                  rw [ihc]
                  rfl
                · rw [if_neg h6]
                  by_cases h7 : c = '\r'
                  · subst h7
                    rw [if_pos (by trivial)]
                    show scanString (fuel + 1) ('\\' :: 'r' :: (escString cs ++ '"' :: rest)) = _
                    rw [show scanString (fuel + 1)
                          ('\\' :: 'r' :: (escString cs ++ '"' :: rest))
                        = (scanString fuel (escString cs ++ '"' :: rest)).map
                            (fun r => ('\r' :: r.1, r.2)) from rfl]
                    rw [ihc]
                    rfl
                  · rw [if_neg h7]
                    by_cases h8 : c.toNat < 32
                    · rw [if_pos h8]
                      show scanString (fuel + 1)
                          ('\\' :: 'u' :: '0' :: '0' :: hexDigitChar (c.toNat / 16)
                            :: hexDigitChar (c.toNat % 16)
                            :: (escString cs ++ '"' :: rest)) = _
                      have e1 : hexVal '0' = some 0 := rfl
                      have e2 : hexVal (hexDigitChar (c.toNat / 16))
                          = some (c.toNat / 16) :=
                        hexVal_hexDigitChar _ (by omega)
                      have e3 : hexVal (hexDigitChar (c.toNat % 16))
                          = some (c.toNat % 16) :=
                        hexVal_hexDigitChar _ (Nat.mod_lt _ (by omega))
                      rw [show scanString (fuel + 1)
                            ('\\' :: 'u' :: '0' :: '0' :: hexDigitChar (c.toNat / 16)
                              :: hexDigitChar (c.toNat % 16)
                              :: (escString cs ++ '"' :: rest))
                          = (match hexVal '0', hexVal '0',
                              hexVal (hexDigitChar (c.toNat / 16)),
                              hexVal (hexDigitChar (c.toNat % 16)) with
                             | some a, some b, some d, some g =>
                               (scanString fuel (escString cs ++ '"' :: rest)).map
                                 (fun r =>
                                   (Char.ofNat (((a * 16 + b) * 16 + d) * 16 + g)
                                     :: r.1, r.2))
                             | _, _, _, _ => none) from rfl]
                      rw [e1, e2, e3]
                      simp only
                      rw [ihc]
                      have hcode : ((0 * 16 + 0) * 16 + c.toNat / 16) * 16 + c.toNat % 16
                          = c.toNat := by omega
                      rw [hcode, Char.ofNat_toNat]
                      rfl
                    · rw [if_neg h8]
                      show scanString (fuel + 1) (c :: (escString cs ++ '"' :: rest)) = _
                      have hstep : scanString (fuel + 1) (c :: (escString cs ++ '"' :: rest))
                          = if c = '"' then some ([], escString cs ++ '"' :: rest)
                            else if c = '\\' then
                              match escString cs ++ '"' :: rest with
                              | [] => none
                              | e :: cs2 =>
                                if e = 'u' then
                                  match cs2 with
                                  | h1 :: h2 :: h3 :: h4 :: cs3 =>
                                    match hexVal h1, hexVal h2, hexVal h3, hexVal h4 with
                                    | some a, some b, some d, some g =>
                                      (scanString fuel cs3).map
                                        (fun r =>
                                          (Char.ofNat
                                            (((a * 16 + b) * 16 + d) * 16 + g)
                                            :: r.1, r.2))
                                    | _, _, _, _ => none
                                  | _ => none
                                else
                                  match unescape1 e with
                                  | some u =>
                                    (scanString fuel cs2).map
                                      (fun r => (u :: r.1, r.2))
                                  | none => none
                            else (scanString fuel (escString cs ++ '"' :: rest)).map
                              (fun r => (c :: r.1, r.2)) := rfl
                      rw [hstep, if_neg h1, if_neg h2, ihc]
                      rfl

/-! ### Fuel bounds

`fuelV v` is enough parser fuel for the serialized form of `v`; it is bounded
by the length of that serialized form, so `parseJson`, which uses
`length + 1` fuel, always has enough. -/

mutual

def fuelV : Json → Nat
  | .null => 1
  | .bool _ => 1
  | .num _ => 1
  | .str _ => 1
  | .arr xs => 1 + fuelEA xs
  | .obj l => 1 + fuelFA l

def fuelEA : List Json → Nat
  | [] => 1
  | x :: xs => 1 + max (fuelV x) (fuelEM xs)

def fuelEM : List Json → Nat
  | [] => 1
  | x :: xs => 1 + max (fuelV x) (fuelEM xs)

def fuelFA : List (List Char × Json) → Nat
  | [] => 1
  | (_, v) :: l => 1 + max (fuelV v) (fuelFM l)

def fuelFM : List (List Char × Json) → Nat
  | [] => 1
  | (_, v) :: l => 1 + max (fuelV v) (fuelFM l)

end

theorem fuelV_pos (v : Json) : 1 ≤ fuelV v := by
  cases v <;> simp [fuelV]

theorem fuelEA_pos (xs : List Json) : 1 ≤ fuelEA xs := by
  cases xs <;> simp [fuelEA]

theorem fuelEM_pos (xs : List Json) : 1 ≤ fuelEM xs := by
  cases xs <;> simp [fuelEM]

theorem fuelFA_pos (l : List (List Char × Json)) : 1 ≤ fuelFA l := by
  cases l with
  | nil => simp [fuelFA]
  | cons f l => obtain ⟨k, v⟩ := f; simp [fuelFA]

theorem fuelFM_pos (l : List (List Char × Json)) : 1 ≤ fuelFM l := by
  cases l with
  | nil => simp [fuelFM]
  | cons f l => obtain ⟨k, v⟩ := f; simp [fuelFM]

theorem strChars_length_pos (v : Json) : 1 ≤ (strChars v).length := by
  cases v with
  | null => simp [strChars]
  | bool b => cases b <;> simp [strChars]
  | num n =>
    simp only [strChars]
    cases h : natChars n with
    | nil => exact absurd h (natChars_ne_nil n)
    | cons a l => simp
  | str s => simp [strChars]
  | arr xs => simp [strChars]
  | obj l => simp [strChars]

mutual

theorem fuelV_le_length (v : Json) : fuelV v ≤ (strChars v).length := by
  cases v with
  | null => simp [fuelV, strChars]
  | bool b => cases b <;> simp [fuelV, strChars]
  | num n =>
    have h := strChars_length_pos (.num n)
    simp only [fuelV]
    omega
  | str s => simp [fuelV, strChars]
  | arr xs =>
    have h := fuelEA_le_length xs
    simp only [fuelV, strChars, List.length_cons, List.length_append]
    simp at h ⊢
    omega
  | obj l =>
    have h := fuelFA_le_length l
    simp only [fuelV, strChars, List.length_cons, List.length_append]
    simp at h ⊢
    omega

theorem fuelEA_le_length (xs : List Json) : fuelEA xs ≤ (elemsBody xs).length + 1 := by
  cases xs with
  | nil => simp [fuelEA, elemsBody]
  | cons x xs =>
    have h1 := fuelV_le_length x
    have h2 := fuelEM_le_length xs
    have h3 := strChars_length_pos x
    simp only [fuelEA, elemsBody, List.length_append]
    omega

theorem fuelEM_le_length (xs : List Json) : fuelEM xs ≤ (elemsMore xs).length + 1 := by
  cases xs with
  | nil => simp [fuelEM, elemsMore]
  | cons x xs =>
    have h1 := fuelV_le_length x
    have h2 := fuelEM_le_length xs
    simp only [fuelEM, elemsMore, List.length_cons, List.length_append]
    omega

theorem fuelFA_le_length (l : List (List Char × Json)) :
    fuelFA l ≤ (fieldsBody l).length + 1 := by
  cases l with
  | nil => simp [fuelFA, fieldsBody]
  | cons f l =>
    obtain ⟨k, v⟩ := f
    have h1 := fuelV_le_length v
    have h2 := fuelFM_le_length l
    simp only [fuelFA, fieldsBody, List.length_cons, List.length_append]
    omega

theorem fuelFM_le_length (l : List (List Char × Json)) :
    fuelFM l ≤ (fieldsMore l).length + 1 := by
  cases l with
  | nil => simp [fuelFM, fieldsMore]
  | cons f l =>
    obtain ⟨k, v⟩ := f
    have h1 := fuelV_le_length v
    have h2 := fuelFM_le_length l
    simp only [fuelFM, fieldsMore, List.length_cons, List.length_append]
    omega

end

theorem isDigit_ne_specials (c : Char) (h : c.isDigit = true) :
    ¬c = 'n' ∧ ¬c = 't' ∧ ¬c = 'f' ∧ ¬c = '"' ∧ ¬c = '[' ∧ ¬c = '\x7b' := by
  refine ⟨?_, ?_, ?_, ?_, ?_, ?_⟩ <;>
    (intro heq; subst heq; exact absurd h (by decide))

theorem strChars_cons (v : Json) :
    ∃ c cs, strChars v = c :: cs ∧ ¬c = ']' ∧ ¬c = '\x7d' ∧ ¬c = ',' := by
  cases v with
  | null =>
    exact ⟨'n', ['u', 'l', 'l'], by simp [strChars], by decide, by decide, by decide⟩
  | bool b =>
    cases b with
    | false =>
      exact ⟨'f', ['a', 'l', 's', 'e'], by simp [strChars], by decide, by decide,
        by decide⟩
    | true =>
      exact ⟨'t', ['r', 'u', 'e'], by simp [strChars], by decide, by decide, by decide⟩
  | num n =>
    cases hnc : natChars n with
    | nil => exact absurd hnc (natChars_ne_nil n)
    | cons d ds =>
      have hd : d.isDigit = true := natChars_digits n d (by rw [hnc]; simp)
      refine ⟨d, ds, by simp [strChars, hnc], ?_, ?_, ?_⟩ <;>
        (intro heq; subst heq; exact absurd hd (by decide))
  | str s =>
    exact ⟨'"', escString s ++ ['"'], by simp [strChars], by decide, by decide,
      by decide⟩
  | arr xs =>
    exact ⟨'[', elemsBody xs ++ [']'], by simp [strChars], by decide, by decide,
      by decide⟩
  | obj l =>
    exact ⟨'\x7b', fieldsBody l ++ ['\x7d'], by simp [strChars], by decide, by decide,
      by decide⟩

theorem noDigitHead_elemsMore (xs : List Json) (rest : List Char) :
    noDigitHead (elemsMore xs ++ ']' :: rest) = true := by
  cases xs with
  | nil =>
    rw [show elemsMore [] = [] from by simp [elemsMore]]
    rfl
  | cons x xs =>
    rw [show elemsMore (x :: xs) = ',' :: strChars x ++ elemsMore xs from by
      simp [elemsMore]]
    rfl

theorem noDigitHead_fieldsMore (l : List (List Char × Json)) (rest : List Char) :
    noDigitHead (fieldsMore l ++ '\x7d' :: rest) = true := by
  cases l with
  | nil =>
    rw [show fieldsMore [] = [] from by simp [fieldsMore]]
    rfl
  | cons f l =>
    obtain ⟨k, v⟩ := f
    rw [show fieldsMore ((k, v) :: l)
        = ',' :: '"' :: escString k ++ '"' :: ':' :: strChars v ++ fieldsMore l from by
      simp [fieldsMore]]
    rfl

/-- Completeness of the parser on serializer output, by induction on fuel:
with enough fuel, each parsing mode recovers exactly the value whose
serialized form heads the input. -/
theorem parse_complete (fuel : Nat) :
    (∀ v rest, fuelV v ≤ fuel → noDigitHead rest = true →
      parseStep fuel .val (strChars v ++ rest) = some (.v v, rest))
    ∧ (∀ xs rest, fuelEA xs ≤ fuel →
      parseStep fuel .elemsAll (elemsBody xs ++ ']' :: rest) = some (.es xs, rest))
    ∧ (∀ xs rest, fuelEM xs ≤ fuel →
      parseStep fuel .elemsMore (elemsMore xs ++ ']' :: rest) = some (.es xs, rest))
    ∧ (∀ l rest, fuelFA l ≤ fuel →
      parseStep fuel .fieldsAll (fieldsBody l ++ '\x7d' :: rest) = some (.fs l, rest))
    ∧ (∀ l rest, fuelFM l ≤ fuel →
      parseStep fuel .fieldsMore (fieldsMore l ++ '\x7d' :: rest) = some (.fs l, rest)) := by
  induction fuel with
  | zero =>
    refine ⟨?_, ?_, ?_, ?_, ?_⟩
    · intro v rest hf _; have := fuelV_pos v; omega
    · intro xs rest hf; have := fuelEA_pos xs; omega
    · intro xs rest hf; have := fuelEM_pos xs; omega
    · intro l rest hf; have := fuelFA_pos l; omega
    · intro l rest hf; have := fuelFM_pos l; omega
  | succ f ih =>
    obtain ⟨ihV, ihEA, ihEM, ihFA, ihFM⟩ := ih
    refine ⟨?_, ?_, ?_, ?_, ?_⟩
    · -- mode .val
      intro v rest hf hrest
      cases v with
      | null =>
        rw [show strChars Json.null = ['n', 'u', 'l', 'l'] from by simp [strChars]]
        rfl
      | bool b =>
        cases b with
        | false =>
          rw [show strChars (Json.bool false) = ['f', 'a', 'l', 's', 'e'] from by
            simp [strChars]]
          rfl
        | true =>
          rw [show strChars (Json.bool true) = ['t', 'r', 'u', 'e'] from by
            simp [strChars]]
          rfl
      | num n =>
        rw [show strChars (Json.num n) = natChars n from by simp [strChars]]
        cases hnc : natChars n with
        | nil => exact absurd hnc (natChars_ne_nil n)
        | cons d ds =>
          have hd : d.isDigit = true := natChars_digits n d (by rw [hnc]; simp)
          obtain ⟨hne1, hne2, hne3, hne4, hne5, hne6⟩ := isDigit_ne_specials d hd
          show parseStep (f + 1) .val (d :: (ds ++ rest)) = _
          simp only [parseStep]
          rw [if_neg hne1, if_neg hne2, if_neg hne3, if_neg hne4, if_neg hne5,
            if_neg hne6]
          rw [show d :: (ds ++ rest) = natChars n ++ rest from by rw [hnc]; rfl]
          rw [parseNat_natChars n rest hrest]
      | str s =>
        rw [show strChars (Json.str s) = '"' :: escString s ++ ['"'] from by
          simp [strChars]]
        simp only [List.cons_append, List.append_assoc, List.singleton_append, List.nil_append]
        simp only [parseStep]
        rw [if_neg (by decide : ¬('"' : Char) = 'n'),
          if_neg (by decide : ¬('"' : Char) = 't'),
          if_neg (by decide : ¬('"' : Char) = 'f'), if_pos (by trivial)]
        rw [scanString_esc s ((escString s ++ '"' :: rest).length + 1) rest (by
          have := length_escString_ge s
          simp only [List.length_append, List.length_cons]
          omega)]
      | arr xs =>
        have hEA : fuelEA xs ≤ f := by simp only [fuelV] at hf; omega
        rw [show strChars (Json.arr xs) = '[' :: elemsBody xs ++ [']'] from by
          simp [strChars]]
        simp only [List.cons_append, List.append_assoc, List.singleton_append, List.nil_append]
        simp only [parseStep]
        rw [if_neg (by decide : ¬('[' : Char) = 'n'),
          if_neg (by decide : ¬('[' : Char) = 't'),
          if_neg (by decide : ¬('[' : Char) = 'f'),
          if_neg (by decide : ¬('[' : Char) = '"'), if_pos (by trivial)]
        rw [ihEA xs rest hEA]
      | obj l =>
        have hFA : fuelFA l ≤ f := by simp only [fuelV] at hf; omega
        rw [show strChars (Json.obj l) = '\x7b' :: fieldsBody l ++ ['\x7d'] from by
          simp [strChars]]
        simp only [List.cons_append, List.append_assoc, List.singleton_append, List.nil_append]
        simp only [parseStep]
        rw [if_neg (by decide : ¬('\x7b' : Char) = 'n'),
          if_neg (by decide : ¬('\x7b' : Char) = 't'),
          if_neg (by decide : ¬('\x7b' : Char) = 'f'),
          if_neg (by decide : ¬('\x7b' : Char) = '"'),
          if_neg (by decide : ¬('\x7b' : Char) = '['), if_pos (by trivial)]
        rw [ihFA l rest hFA]
    · -- mode .elemsAll
      intro xs rest hf
      cases xs with
      | nil =>
        rw [show elemsBody ([] : List Json) = [] from by simp [elemsBody]]
        rfl
      | cons x xs =>
        have hV : fuelV x ≤ f := by simp only [fuelEA] at hf; omega
        have hM : fuelEM xs ≤ f := by simp only [fuelEA] at hf; omega
        obtain ⟨c, cs, hx, hc1, _, _⟩ := strChars_cons x
        rw [show elemsBody (x :: xs) = strChars x ++ elemsMore xs from by
          simp [elemsBody]]
        rw [List.append_assoc, hx]
        show parseStep (f + 1) .elemsAll (c :: (cs ++ (elemsMore xs ++ ']' :: rest))) = _
        simp only [parseStep]
        rw [if_neg hc1]
        rw [show c :: (cs ++ (elemsMore xs ++ ']' :: rest))
            = strChars x ++ (elemsMore xs ++ ']' :: rest) from by rw [hx]; rfl]
        rw [ihV x (elemsMore xs ++ ']' :: rest) hV (noDigitHead_elemsMore xs rest)]
        dsimp only
        rw [ihEM xs rest hM]
    · -- mode .elemsMore
      intro xs rest hf
      cases xs with
      | nil =>
        rw [show elemsMore ([] : List Json) = [] from by simp [elemsMore]]
        rfl
      | cons x xs =>
        have hV : fuelV x ≤ f := by simp only [fuelEM] at hf; omega
        have hM : fuelEM xs ≤ f := by simp only [fuelEM] at hf; omega
        rw [show elemsMore (x :: xs) = ',' :: strChars x ++ elemsMore xs from by
          simp [elemsMore]]
        simp only [List.cons_append, List.append_assoc, List.nil_append]
        simp only [parseStep]
        rw [if_neg (by decide : ¬(',' : Char) = ']'), if_pos (by trivial)]
        rw [ihV x (elemsMore xs ++ ']' :: rest) hV (noDigitHead_elemsMore xs rest)]
        dsimp only
        rw [ihEM xs rest hM]
    · -- mode .fieldsAll
      intro l rest hf
      cases l with
      | nil =>
        rw [show fieldsBody ([] : List (List Char × Json)) = [] from by
          simp [fieldsBody]]
        rfl
      | cons kv l =>
        obtain ⟨k, v⟩ := kv
        have hV : fuelV v ≤ f := by simp only [fuelFA] at hf; omega
        have hM : fuelFM l ≤ f := by simp only [fuelFA] at hf; omega
        rw [show fieldsBody ((k, v) :: l)
            = '"' :: escString k ++ '"' :: ':' :: strChars v ++ fieldsMore l from by
          simp [fieldsBody]]
        simp only [List.cons_append, List.append_assoc, List.nil_append]
        simp only [parseStep]
        rw [if_neg (by decide : ¬('"' : Char) = '\x7d'), if_pos (by trivial)]
        rw [scanString_esc k
          ((escString k ++ '"' :: ':'
            :: (strChars v ++ (fieldsMore l ++ '\x7d' :: rest))).length + 1)
          (':' :: (strChars v ++ (fieldsMore l ++ '\x7d' :: rest))) (by
          have := length_escString_ge k
          simp only [List.length_append, List.length_cons]
          omega)]
        simp only
        rw [ihV v (fieldsMore l ++ '\x7d' :: rest) hV (noDigitHead_fieldsMore l rest)]
        dsimp only
        rw [ihFM l rest hM]
    · -- mode .fieldsMore
      intro l rest hf
      cases l with
      | nil =>
        rw [show fieldsMore ([] : List (List Char × Json)) = [] from by
          simp [fieldsMore]]
        rfl
      | cons kv l =>
        obtain ⟨k, v⟩ := kv
        have hV : fuelV v ≤ f := by simp only [fuelFM] at hf; omega
        have hM : fuelFM l ≤ f := by simp only [fuelFM] at hf; omega
        rw [show fieldsMore ((k, v) :: l)
            = ',' :: '"' :: escString k ++ '"' :: ':' :: strChars v ++ fieldsMore l
          from by simp [fieldsMore]]
        simp only [List.cons_append, List.append_assoc, List.nil_append]
        simp only [parseStep]
        rw [if_neg (by decide : ¬(',' : Char) = '\x7d'), if_pos (by trivial)]
        rw [scanString_esc k
          ((escString k ++ '"' :: ':'
            :: (strChars v ++ (fieldsMore l ++ '\x7d' :: rest))).length + 1)
          (':' :: (strChars v ++ (fieldsMore l ++ '\x7d' :: rest))) (by
          have := length_escString_ge k
          simp only [List.length_append, List.length_cons]
          omega)]
        simp only
        rw [ihV v (fieldsMore l ++ '\x7d' :: rest) hV (noDigitHead_fieldsMore l rest)]
        dsimp only
        rw [ihFM l rest hM]

/-- The serialize-then-parse round trip: `JSON.parse (JSON.stringify v) = v`. -/
theorem parseJson_strChars (v : Json) : parseJson (strChars v) = some v := by
  unfold parseJson
  have h := (parse_complete ((strChars v).length + 1)).1 v []
    (by have := fuelV_le_length v; omega) rfl
  rw [List.append_nil] at h
  rw [h]

/-! ## The Event Log (`src/database.js`: `logEvent`, `getEventByLogId`)

A row of the `event_log` table holds `event_type` and the payload serialized
by `JSON.stringify`; `id_event` is the `AUTOINCREMENT` primary key, i.e. the
1-based position of the row in insertion order. -/

structure LogEntry where
  eventType : String
  payloadJson : List Char

/-- `logEvent(eventType, payload)` — `INSERT INTO event_log (event_type,
payload) VALUES (?, ?)` with `payloadJson = JSON.stringify(payload)`, then
resolve with the new row's id (`this.lastID`). -/
def logEvent (log : List LogEntry) (eventType : String) (payload : Json) :
    List LogEntry × Nat :=
  (log ++ [⟨eventType, strChars payload⟩], log.length + 1)

/-- `getEventByLogId(logId)` — `SELECT event_type, payload FROM event_log
WHERE id_event = ?`; when a row exists its payload column is run through
`JSON.parse`, otherwise the call resolves `null` (here `none`).  A payload
column that does not parse would make `JSON.parse` throw and the promise
reject, also `none` here. -/
def getEventByLogId (log : List LogEntry) (logId : Nat) :
    Option (String × Json) :=
  if logId = 0 then none
  else
    match log[logId - 1]? with
    | none => none
    | some e =>
      match parseJson e.payloadJson with
      | some p => some (e.eventType, p)
      | none => none

/-- C9: for every fact successfully appended to the Event Log, fetching by
the returned sequenceId returns an entry whose payload equals the payload
that was logged, and whose fact type is the one that was logged: the
serialize-on-append / deserialize-on-fetch pair is a round trip. -/
theorem C9_append_fetch_roundtrip (log : List LogEntry) (t : String) (p : Json) :
    getEventByLogId (logEvent log t p).1 (logEvent log t p).2 = some (t, p) := by
  unfold logEvent getEventByLogId
  simp only [Nat.add_sub_cancel, Nat.add_one_ne_zero, if_false]
  rw [List.getElem?_concat_length]
  simp only [parseJson_strChars]

/-! ## The Event Bus (`src/event-bus.js`: the proxied `emit`)

`EventBusWrapper` intercepts `emit(eventType, eventPayload)` and performs, in
order: (0) a direct native emit — the optimistic delivery; (1) `await
db.logEvent(eventType, eventPayload)`; (2)+(3) on success, a native emit of
`eventType + "-KAFKED"` with the payload spread-extended with
`logId: eventId`.  On failure the `catch` logs a CRITICAL line and returns
normally — the caller's awaited promise resolves.

The embedding records the emitted trace: `publish` is one native
`emit` call (delivering synchronously to that type's subscribers),
`appendDone`/`appendFailed` is the completion of the log append, and
`logCritical` is the `console.error` in the catch.  `ok` abstracts the
availability of the event-log store. -/

/-- A JavaScript object payload: ordered fields. -/
abbrev Payload := List (List Char × Json)

/-- The field name `logId`. -/
def logIdKey : List Char := ['l', 'o', 'g', 'I', 'd']

/-- The spread-extension `(... p, k: v)` of JavaScript objects: an existing
field `k` is overwritten in place, a new one is appended. -/
def setKey (p : Payload) (k : List Char) (v : Json) : Payload :=
  if p.any (fun f => f.1 = k) then
    p.map (fun f => if f.1 = k then (k, v) else f)
  else p ++ [(k, v)]

inductive BusAction where
  | publish (eventType : String) (payload : Payload)
  | appendDone (seqId : Nat)
  | appendFailed
  | logCritical (eventType : String)

structure EmitResult where
  trace : List BusAction
  log : List LogEntry
  result : Except String Unit

/-- The proxied `emit` of `EventBusWrapper` (src/event-bus.js lines 41-105). -/
def emit : Bool → List LogEntry → String → Payload → EmitResult
  | true, log, eventType, payload =>
    { trace := [.publish eventType payload,
        .appendDone (logEvent log eventType (.obj payload)).2,
        .publish (eventType ++ "-KAFKED")
          (setKey payload logIdKey (.num (logEvent log eventType (.obj payload)).2))]
      log := (logEvent log eventType (.obj payload)).1
      result := .ok () }
  | false, log, eventType, payload =>
    { trace := [.publish eventType payload, .appendFailed, .logCritical eventType]
      log := log
      result := .ok () }

/-- Handler invocations performed by a trace: Node's `EventEmitter.emit`
calls every listener registered for the emitted type, in registration order.
`subs` maps an event type to its registered handler ids. -/
def deliveries (subs : String → List Nat) : List BusAction → List (Nat × String × Payload)
  | [] => []
  | .publish t p :: rest => (subs t).map (fun h => (h, t, p)) ++ deliveries subs rest
  | .appendDone _ :: rest => deliveries subs rest
  | .appendFailed :: rest => deliveries subs rest
  | .logCritical _ :: rest => deliveries subs rest

def isPublishOf (t : String) : BusAction → Bool
  | .publish u _ => u = t
  | _ => false

def isPublish : BusAction → Bool
  | .publish _ _ => true
  | _ => false

theorem self_ne_kafked (t : String) : ¬t = t ++ "-KAFKED" := by
  intro h
  have hlen := congrArg String.length h
  rw [String.length_append] at hlen
  have : ("-KAFKED" : String).length = 7 := rfl
  omega

theorem filter_deliveries_other (q t : String) (p : Payload) (hs : List Nat)
    (h : ¬t = q) :
    (hs.map (fun i => (i, t, p))).filter (fun d => d.2.1 = q) = [] := by
  induction hs with
  | nil => rfl
  | cons a l ih => simp [h, ih]

theorem filter_deliveries_same (q : String) (p : Payload) (hs : List Nat) :
    (hs.map (fun i => (i, q, p))).filter (fun d => d.2.1 = q)
      = hs.map (fun i => (i, q, p)) := by
  induction hs with
  | nil => rfl
  | cons a l ih => simp [ih]

/-- C1: for every fact of type `t` whose Event Log append succeeds, the bus
publishes exactly one confirmed variant: its type is `t ++ "-KAFKED"`, its
payload is the original payload extended with the assigned sequence id under
the `logId` key, and it is delivered to exactly the subscribers of the
confirmed variant (each exactly once, with that payload). -/
theorem C1_confirmed_variant (log : List LogEntry) (t : String) (p : Payload)
    (subs : String → List Nat) :
    ((emit true log t p).trace.filter (isPublishOf (t ++ "-KAFKED"))
      = [.publish (t ++ "-KAFKED")
          (setKey p logIdKey (.num (logEvent log t (.obj p)).2))])
    ∧ BusAction.appendDone (logEvent log t (.obj p)).2 ∈ (emit true log t p).trace
    ∧ ((deliveries subs (emit true log t p).trace).filter
          (fun d => d.2.1 = t ++ "-KAFKED")
        = (subs (t ++ "-KAFKED")).map
            (fun h => (h, t ++ "-KAFKED",
              setKey p logIdKey (.num (logEvent log t (.obj p)).2)))) := by
  refine ⟨?_, ?_, ?_⟩
  · simp [emit, isPublishOf, List.filter, self_ne_kafked t]
  · simp [emit]
  · simp only [emit, deliveries, List.append_nil]
    rw [List.filter_append]
    rw [filter_deliveries_other (t ++ "-KAFKED") t p (subs t) (self_ne_kafked t)]
    rw [filter_deliveries_same (t ++ "-KAFKED") _ (subs (t ++ "-KAFKED"))]
    simp

/-- C2: for every fact published on the bus, every optimistic (raw-type)
delivery in the emit trace occurs strictly before the Event Log append for
that fact completes, and every confirmed-variant delivery occurs strictly
after the append completes. -/
theorem C2_optimistic_before_append (ok : Bool) (log : List LogEntry)
    (t : String) (p : Payload) (i j : Nat)
    (hi : (emit ok log t p).trace[i]? = some (.publish t p))
    (hj : (emit ok log t p).trace[j]? = some (.appendDone (logEvent log t (.obj p)).2)
      ∨ (emit ok log t p).trace[j]? = some .appendFailed) :
    i < j ∧ ∀ k q, (emit ok log t p).trace[k]? = some (.publish (t ++ "-KAFKED") q)
      → j < k := by
  have hne := self_ne_kafked t
  cases ok with
  | true =>
    simp only [emit] at hi hj
    have hi0 : i = 0 := by
      rcases i with _ | _ | _ | i
      · rfl
      · simp at hi
      · simp at hi
        exact absurd hi.1 (fun h => hne h.symm)
      · simp at hi
    have hj1 : j = 1 := by
      rcases j with _ | _ | _ | j
      · rcases hj with h | h <;> simp at h
      · rfl
      · rcases hj with h | h <;> simp at h
      · rcases hj with h | h <;> simp at h
    subst hi0
    subst hj1
    refine ⟨by omega, ?_⟩
    intro k q hk
    simp only [emit] at hk
    rcases k with _ | _ | _ | k
    · simp at hk
      exact absurd hk.1 hne
    · simp at hk
    · omega
    · simp at hk
  | false =>
    simp only [emit] at hi hj
    have hi0 : i = 0 := by
      rcases i with _ | _ | _ | i
      · rfl
      · simp at hi
      · simp at hi
      · simp at hi
    have hj1 : j = 1 := by
      rcases j with _ | _ | _ | j
      · rcases hj with h | h <;> simp at h
      · rfl
      · rcases hj with h | h <;> simp at h
      · rcases hj with h | h <;> simp at h
    subst hi0
    subst hj1
    refine ⟨by omega, ?_⟩
    intro k q hk
    simp only [emit] at hk
    rcases k with _ | _ | _ | k
    · simp at hk
      exact absurd hk.1 hne
    · simp at hk
    · simp at hk
    · simp at hk

/-- C6 counterexample: the claim additionally asserts that an Event Log
append failure is surfaced to the publisher's caller.  At this concrete
failing publish the proxied `emit` catches the rejection and resolves
normally: the caller observes no error. -/
theorem C6_counterexample :
    (¬∃ e, (emit false [] "incoming-message"
        [(['c', 'h', 'a', 't', 'I', 'd'], .num 1)]).result = Except.error e)
    ∧ (emit false [] "incoming-message"
        [(['c', 'h', 'a', 't', 'I', 'd'], .num 1)]).result = Except.ok () := by
  constructor
  · rintro ⟨e, h⟩
    simp [emit] at h
  · simp [emit]

/-- C6 (amended): for every publish whose Event Log append fails, the
confirmed variant is never published, the optimistic publish has already
happened and is not retracted (it is the only publish of the trace and no
compensating action exists), the event log is unchanged, and the failure is
logged as critical but swallowed: the publisher's caller observes normal
completion rather than an error. -/
theorem C6_amended_append_failure (log : List LogEntry) (t : String) (p : Payload) :
    ((emit false log t p).trace.filter isPublish = [.publish t p])
    ∧ (∀ q, BusAction.publish (t ++ "-KAFKED") q ∉ (emit false log t p).trace)
    ∧ BusAction.logCritical t ∈ (emit false log t p).trace
    ∧ (emit false log t p).log = log
    ∧ (emit false log t p).result = .ok () := by
  refine ⟨?_, ?_, ?_, ?_, ?_⟩
  · simp [emit, isPublish, List.filter]
  · intro q
    simp [emit, self_ne_kafked t]
    intro h
    exact absurd h.symm (self_ne_kafked t)
  · simp [emit]
  · simp [emit]
  · simp [emit]

/-- Witness for C2 at a concrete publish: the optimistic delivery (index 0)
precedes the append completion (index 1), which precedes every
confirmed-variant delivery. -/
theorem C2_optimistic_before_append_witness :
    0 < 1 ∧ ∀ k q, (emit true [] "incoming-message" []).trace[k]?
      = some (.publish ("incoming-message" ++ "-KAFKED") q) → 1 < k :=
  C2_optimistic_before_append true [] "incoming-message" [] 0 1 rfl (Or.inl rfl)

/-! ## The read model (`src/database.js`: `addMessage`, `getChatHistory`)

The `messages` and `users` tables of `setup-db.js`; `created_at` defaults to
`CURRENT_TIMESTAMP`, modelled as a `Nat` supplied at insertion. -/

structure MsgRow where
  id_message : Nat
  id_chat : Nat
  id_user : Nat
  message : String
  created_at : Nat
deriving DecidableEq

structure UserRow where
  id_user : Nat
  username : String
deriving DecidableEq

/-- The row shape of `getChatHistory`'s SELECT-JOIN: `m.id_message,
m.message, m.created_at, u.id_user, u.username`. -/
structure HistRow where
  id_message : Nat
  message : String
  created_at : Nat
  id_user : Nat
  username : String
deriving DecidableEq

/-- The row shape of `addMessage`'s re-SELECT: `m.id_message, m.id_chat,
m.message, m.created_at, u.id_user, u.username`. -/
structure ProjRow where
  id_message : Nat
  id_chat : Nat
  message : String
  created_at : Nat
  id_user : Nat
  username : String
deriving DecidableEq

/-- Stable insertion by `created_at` (SQL `ORDER BY m.created_at ASC`; for
equal timestamps SQLite's order is unspecified — the model keeps table
order, and the claims below avoid ties). -/
def insertByCreated (r : HistRow) : List HistRow → List HistRow
  | [] => [r]
  | x :: xs => if r.created_at < x.created_at then r :: x :: xs
               else x :: insertByCreated r xs

def sortByCreated : List HistRow → List HistRow
  | [] => []
  | x :: xs => insertByCreated x (sortByCreated xs)

/-- `getChatHistory(chatId)` — `SELECT m.id_message, m.message, m.created_at,
u.id_user, u.username FROM messages m JOIN users u ON m.id_user = u.id_user
WHERE m.id_chat = ? ORDER BY m.created_at ASC`.  Its JavaScript signature
declares only `chatId`; callers passing more arguments have them silently
dropped. -/
def getChatHistory (messages : List MsgRow) (users : List UserRow)
    (chatId : Nat) : List HistRow :=
  sortByCreated ((messages.filter (fun m => m.id_chat = chatId)).filterMap
    (fun m => (users.find? (fun u => u.id_user = m.id_user)).map
      (fun u => ⟨m.id_message, m.message, m.created_at, u.id_user, u.username⟩)))

/-- The next `AUTOINCREMENT` id of the `messages` table. -/
def nextMessageId (messages : List MsgRow) : Nat :=
  (messages.map (fun m => m.id_message)).foldr max 0 + 1

/-- `addMessage(chatId, userId, message)` — INSERT the row, then re-SELECT it
joined with `users` (the promise resolves `undefined`, here `none`, when the
author has no `users` row; the INSERT itself succeeds, as the schema declares
no enforced foreign keys). -/
def addMessage (messages : List MsgRow) (users : List UserRow)
    (now chatId userId : Nat) (text : String) : List MsgRow × Option ProjRow :=
  let id := nextMessageId messages
  (messages ++ [⟨id, chatId, userId, text, now⟩],
   (users.find? (fun u => u.id_user = userId)).map
     (fun u => ⟨id, chatId, text, now, u.id_user, u.username⟩))

/-- The history slice pushed by the Dispatcher's `chat-selected-by-user`
handler (`src/persistence-service.js` lines 122-156): it calls
`db.getChatHistory(chatId, lastMessageId)` — but `getChatHistory` declares a
single parameter, so `lastMessageId` is dropped and the full room history is
returned. -/
def historyPushedOnSelect (messages : List MsgRow) (users : List UserRow)
    (chatId lastMessageId : Nat) : List HistRow :=
  getChatHistory messages users chatId

/-- Stable insertion by `id_message`, ascending. -/
def insertById (r : HistRow) : List HistRow → List HistRow
  | [] => [r]
  | x :: xs => if r.id_message < x.id_message then r :: x :: xs
               else x :: insertById r xs

def sortById : List HistRow → List HistRow
  | [] => []
  | x :: xs => insertById x (sortById xs)

/-- Modelled from the spec: `listMessagesAfter(roomId, afterId) -> ordered
sequence of rows, ascending by id` — exactly the read-model rows of the room
whose id is greater than the client-supplied last-seen id.  This is the
behavior claim C5 specifies; it is stated here for comparison with the
code's `historyPushedOnSelect`. -/
def listMessagesAfterSpec (messages : List MsgRow) (users : List UserRow)
    (chatId afterId : Nat) : List HistRow :=
  sortById (((messages.filter (fun m => m.id_chat = chatId)).filter
    (fun m => afterId < m.id_message)).filterMap
    (fun m => (users.find? (fun u => u.id_user = m.id_user)).map
      (fun u => ⟨m.id_message, m.message, m.created_at, u.id_user, u.username⟩)))

def c5Users : List UserRow := [⟨1, "Manolo"⟩, ⟨2, "Pepe"⟩]

def c5Messages : List MsgRow :=
  [⟨1, 1, 1, "hi", 10⟩, ⟨2, 1, 2, "hello", 20⟩]

/-- C5 evaluated at the failing input: a client of room 1 that has already
seen message 2 re-selects with `lastSeenMessageId = 2`.  The claim (and
spec) say the pushed history is empty; the code pushes the full room history
again, because `getChatHistory` ignores the `lastMessageId` argument the
handler passes. -/
theorem C5_code_divergence :
    historyPushedOnSelect c5Messages c5Users 1 2
      = [⟨1, "hi", 10, 1, "Manolo"⟩, ⟨2, "hello", 20, 2, "Pepe"⟩]
    ∧ listMessagesAfterSpec c5Messages c5Users 1 2 = []
    ∧ historyPushedOnSelect c5Messages c5Users 1 2
      ≠ listMessagesAfterSpec c5Messages c5Users 1 2 := by
  refine ⟨rfl, rfl, ?_⟩
  intro h
  simp [historyPushedOnSelect, listMessagesAfterSpec, getChatHistory, c5Messages,
    c5Users, sortByCreated, insertByCreated, sortById, insertById] at h

/-! ## The Projector (`src/persistence-service.js` lines 23-59)

The `incoming-message-KAFKED` handler: re-fetch the canonical event from the
Event Log by the carried `logId`; bail out if it is missing or its
`event_type` is not `incoming-message`; otherwise destructure `(chatId,
userId, messageText)` from the canonical payload, persist the read-model row
with `addMessage`, and emit `message-projected` carrying the row `addMessage`
resolved with. -/

def chatIdKey : List Char := ['c', 'h', 'a', 't', 'I', 'd']

def userIdKey : List Char := ['u', 's', 'e', 'r', 'I', 'd']

def messageTextKey : List Char :=
  ['m', 'e', 's', 's', 'a', 'g', 'e', 'T', 'e', 'x', 't']

/-- JavaScript property access `p[k]` on a parsed payload. -/
def getField (p : Json) (k : List Char) : Option Json :=
  match p with
  | .obj l => (l.find? (fun f => f.1 = k)).map (fun f => f.2)
  | _ => none

/-- The destructuring `const (chatId, userId, messageText) = event.payload`
followed by the INSERT of `addMessage`: the id columns are `INTEGER NOT
NULL`, so a payload missing those fields (the destructured value being
`undefined`, bound as SQL `NULL`) makes the INSERT reject and the handler's
`catch` drop the event.  Payloads of other shapes do not arise: the only
writer of `incoming-message` entries is the Gateway. -/
def decodeIncoming (p : Json) : Option (Nat × Nat × String) :=
  match getField p chatIdKey, getField p userIdKey, getField p messageTextKey with
  | some (.num c), some (.num u), some (.str t) => some (c, u, String.mk t)
  | _, _, _ => none

/-- The Projector's `incoming-message-KAFKED` handler.  Returns the new
`messages` table and the facts the handler publishes. -/
def projectorOnKafked (log : List LogEntry) (users : List UserRow)
    (messages : List MsgRow) (now logId : Nat) :
    List MsgRow × List (String × Option ProjRow) :=
  match getEventByLogId log logId with
  | none => (messages, [])
  | some (ty, payload) =>
    if ty = "incoming-message" then
      match decodeIncoming payload with
      | some (chatId, userId, text) =>
        let r := addMessage messages users now chatId userId text
        (r.1, [("message-projected", r.2)])
      | none => (messages, [])
    else (messages, [])

/-- C7: when the re-fetch by the carried sequence id yields no entry, or an
entry whose fact type is not the expected `incoming-message`, the handler
aborts: no read-model row is written and no `message-projected` fact is
published.  Otherwise exactly one Chat Message row is persisted and exactly
one `message-projected` fact carrying the persisted row is published. -/
theorem C7_projector_validation (log : List LogEntry) (users : List UserRow)
    (messages : List MsgRow) (now logId : Nat) :
    ((getEventByLogId log logId = none
        ∨ ∃ ty p, getEventByLogId log logId = some (ty, p)
            ∧ ¬ty = "incoming-message") →
      projectorOnKafked log users messages now logId = (messages, []))
    ∧ (∀ p chatId userId text u,
        getEventByLogId log logId = some ("incoming-message", p) →
        decodeIncoming p = some (chatId, userId, text) →
        users.find? (fun u' => u'.id_user = userId) = some u →
        projectorOnKafked log users messages now logId
          = (messages ++ [⟨nextMessageId messages, chatId, userId, text, now⟩],
             [("message-projected",
               some ⟨nextMessageId messages, chatId, text, now,
                 u.id_user, u.username⟩)])) := by
  constructor
  · intro h
    rcases h with h | ⟨ty, p, h, hty⟩
    · simp [projectorOnKafked, h]
    · simp [projectorOnKafked, h, hty]
  · intro p chatId userId text u hfetch hdec hfind
    simp [projectorOnKafked, hfetch, hdec, addMessage, hfind]

def c7Log : List LogEntry :=
  [⟨"incoming-message",
    ['\x7b', '"', 'c', 'h', 'a', 't', 'I', 'd', '"', ':', '1', ',',
     '"', 'u', 's', 'e', 'r', 'I', 'd', '"', ':', '2', ',',
     '"', 'm', 'e', 's', 's', 'a', 'g', 'e', 'T', 'e', 'x', 't', '"', ':',
     '"', 'h', 'i', '"', '\x7d']⟩]

/-- Witness for C7 at a concrete confirmed fact: the stored entry
`(chatId 1, userId 2, "hi")` is fetched, validated and projected into
exactly one row, and one `message-projected` fact carries that row. -/
theorem C7_projector_validation_witness :
    projectorOnKafked c7Log c5Users c5Messages 30 1
      = (c5Messages ++ [⟨3, 1, 2, "hi", 30⟩],
         [("message-projected", some ⟨3, 1, "hi", 30, 2, "Pepe"⟩)]) :=
  (C7_projector_validation c7Log c5Users c5Messages 30 1).2
    (Json.obj [(chatIdKey, .num 1), (userIdKey, .num 2),
      (messageTextKey, .str ['h', 'i'])])
    1 2 "hi" ⟨2, "Pepe"⟩ rfl rfl rfl

/-! ## The Room Dispatcher's membership map
(`src/persistence-service.js` lines 189-248)

`chatRooms : Map<chatId, Set<WebSocket>>`, an insertion-ordered map from room
id to the set of subscribed connection handles.  `Map` is an association
list (`Map.set` on a present key updates in place, on an absent key appends;
`Map.delete` removes the entry), `Set` is a `Finset` of connection
handles. -/

abbrev Rooms := List (Nat × Finset Nat)

def roomsLookup : Rooms → Nat → Option (Finset Nat)
  | [], _ => none
  | e :: rest, r => if e.1 = r then some e.2 else roomsLookup rest r

def roomsUpdate : Rooms → Nat → Finset Nat → Rooms
  | [], _, _ => []
  | e :: rest, r, ms => if e.1 = r then (e.1, ms) :: rest else e :: roomsUpdate rest r ms

def roomsDelete : Rooms → Nat → Rooms
  | [], _ => []
  | e :: rest, r => if e.1 = r then roomsDelete rest r else e :: roomsDelete rest r

/-- The members of room `r` (the empty set when the room has no entry). -/
def membersOf (rooms : Rooms) (r : Nat) : Finset Nat :=
  (roomsLookup rooms r).getD ∅

/-- `ChatDispatcher.subscribe(socket, chatId)` (lines 195-207), restricted to
the membership map: create the room entry if absent, then add the socket to
its set.  (The `socket.currentChatId = chatId` bookkeeping lives on the
connection and is handled in the system model.) -/
def subscribeRoom (rooms : Rooms) (c : Nat) (chatId : Nat) : Rooms :=
  match roomsLookup rooms chatId with
  | some ms => roomsUpdate rooms chatId (insert c ms)
  | none => rooms ++ [(chatId, {c})]

/-- `ChatDispatcher.unsubscribe(socket, chatId, cleanRoom = true)` (lines
215-227): when `chatId` is truthy and has an entry, delete the socket from
the room's set; when `cleanRoom` holds and the set became empty, delete the
room entry. -/
def unsubscribeRoom (rooms : Rooms) (c : Nat) (chatId : Option Nat)
    (cleanRoom : Bool) : Rooms :=
  match chatId with
  | none => rooms
  | some r =>
    if r = 0 then rooms
    else
      match roomsLookup rooms r with
      | none => rooms
      | some ms =>
        if cleanRoom ∧ (ms.erase c).card = 0 then roomsDelete rooms r
        else roomsUpdate rooms r (ms.erase c)

/-- The first of the Dispatcher's two registered `connection-closed` handlers
(`src/persistence-service.js` lines 159-166): bail out on a falsy `chatId`,
otherwise `unsubscribe(socket, chatId)` with the default `cleanRoom =
true`. -/
def onConnClosedA (rooms : Rooms) (socket : Nat) (chatId : Option Nat) : Rooms :=
  match chatId with
  | none => rooms
  | some r => if r = 0 then rooms else unsubscribeRoom rooms socket (some r) true

/-- The second registered `connection-closed` handler, from the shared
cleanup registration (lines 172-186): guard `socket && chatId` (a socket is
an object reference, always truthy), then `unsubscribe(socket, chatId,
cleanRoom)` with `cleanRoom = true` for `connection-closed`. -/
def onConnClosedB (rooms : Rooms) (socket : Nat) (chatId : Option Nat) : Rooms :=
  match chatId with
  | none => rooms
  | some r => if r = 0 then rooms else unsubscribeRoom rooms socket (some r) true

theorem roomsLookup_update (rooms : Rooms) (r : Nat) (ms : Finset Nat) (q : Nat) :
    roomsLookup (roomsUpdate rooms r ms) q
      = if (roomsLookup rooms r).isSome ∧ q = r then some ms
        else roomsLookup rooms q := by
  induction rooms with
  | nil => simp [roomsUpdate, roomsLookup]
  | cons e rest ih =>
    by_cases h1 : e.1 = r
    · by_cases h2 : q = r
      · subst h2
        simp [roomsUpdate, roomsLookup, h1]
      · have h3 : ¬r = q := fun hh => h2 hh.symm
        simp [roomsUpdate, roomsLookup, h1, h2, h3]
    · by_cases h2 : e.1 = q
      · have h3 : ¬q = r := fun hh => h1 (h2.trans hh)
        simp [roomsUpdate, roomsLookup, h1, h2, h3]
      · simp [roomsUpdate, roomsLookup, h1, h2, ih]

theorem roomsLookup_delete (rooms : Rooms) (r q : Nat) :
    roomsLookup (roomsDelete rooms r) q
      = if q = r then none else roomsLookup rooms q := by
  induction rooms with
  | nil => simp [roomsDelete, roomsLookup]
  | cons e rest ih =>
    by_cases h1 : e.1 = r
    · by_cases h2 : q = r
      · subst h2
        simp [roomsDelete, h1, ih]
      · have h3 : ¬e.1 = q := fun hh => h2 ((hh.symm.trans h1))
        have h4 : ¬r = q := fun hh => h2 hh.symm
        simp [roomsDelete, h1, h2, h3, h4, ih, roomsLookup]
    · by_cases h2 : e.1 = q
      · have h3 : ¬q = r := fun hh => h1 (h2.trans hh)
        simp [roomsDelete, h1, h2, h3, roomsLookup]
      · simp [roomsDelete, h1, h2, ih, roomsLookup]

theorem roomsLookup_append (rooms : Rooms) (r : Nat) (ms : Finset Nat) (q : Nat) :
    roomsLookup (rooms ++ [(r, ms)]) q
      = match roomsLookup rooms q with
        | some v => some v
        | none => if q = r then some ms else none := by
  induction rooms with
  | nil =>
    by_cases h : r = q
    · subst h
      simp [roomsLookup]
    · have h2 : ¬q = r := fun hh => h hh.symm
      simp [roomsLookup, h, h2]
  | cons e rest ih =>
    by_cases h : e.1 = q
    · simp [roomsLookup, h]
    · simp [roomsLookup, h, ih]

theorem roomsUpdate_twice (rooms : Rooms) (r : Nat) (a b : Finset Nat) :
    roomsUpdate (roomsUpdate rooms r a) r b = roomsUpdate rooms r b := by
  induction rooms with
  | nil => rfl
  | cons e rest ih =>
    by_cases h : e.1 = r
    · simp [roomsUpdate, h]
    · simp [roomsUpdate, h, ih]

/-- C10: `unsubscribe` is idempotent — for every membership map, connection,
room argument and fixed `cleanRoom` flag, unsubscribing twice equals
unsubscribing once; hence a single connection close handled through both of
the Dispatcher's registered `connection-closed` handlers leaves the same
membership map as a single removal. -/
theorem C10_unsubscribe_idempotent :
    (∀ (rooms : Rooms) (c : Nat) (chatId : Option Nat) (cleanRoom : Bool),
      unsubscribeRoom (unsubscribeRoom rooms c chatId cleanRoom) c chatId cleanRoom
        = unsubscribeRoom rooms c chatId cleanRoom)
    ∧ (∀ (rooms : Rooms) (socket : Nat) (chatId : Option Nat),
      onConnClosedB (onConnClosedA rooms socket chatId) socket chatId
        = onConnClosedA rooms socket chatId) := by
  have main : ∀ (rooms : Rooms) (c : Nat) (chatId : Option Nat) (cleanRoom : Bool),
      unsubscribeRoom (unsubscribeRoom rooms c chatId cleanRoom) c chatId cleanRoom
        = unsubscribeRoom rooms c chatId cleanRoom := by
    intro rooms c chatId cleanRoom
    match chatId with
    | none => rfl
    | some r =>
      by_cases hr : r = 0
      · simp [unsubscribeRoom, hr]
      · simp only [unsubscribeRoom, if_neg hr]
        cases hms : roomsLookup rooms r with
        | none => simp [unsubscribeRoom, hr, hms]
        | some ms =>
          by_cases hdel : cleanRoom ∧ (ms.erase c).card = 0
          · simp only [if_pos hdel]
            simp [unsubscribeRoom, hr, roomsLookup_delete]
          · simp only [if_neg hdel]
            have hlook : roomsLookup (roomsUpdate rooms r (ms.erase c)) r
                = some (ms.erase c) := by
              rw [roomsLookup_update]
              simp [hms]
            simp only [unsubscribeRoom, if_neg hr, hlook]
            rw [Finset.erase_idem]
            simp only [if_neg hdel]
            exact roomsUpdate_twice rooms r (ms.erase c) (ms.erase c)
  refine ⟨main, ?_⟩
  intro rooms socket chatId
  match chatId with
  | none => rfl
  | some r =>
    by_cases hr : r = 0
    · simp [onConnClosedA, onConnClosedB, hr]
    · simp only [onConnClosedA, onConnClosedB, if_neg hr]
      exact main rooms socket (some r) true

/-! ## The system model: Gateway, Dispatcher and Projector wired together

The Connection Gateway of `src/server.js` (the full copy at lines 317-498)
together with the services registered on the event bus.  The scheduling model
is the spec's single-threaded event loop: a handler runs to completion at the
point its fact is published.  `DomainEvent` (`domain-event.js`, not among the
sources) is modelled from the spec: a fact is its type tag plus a payload,
and publishing a fact delivers it to the subscribers of its type — here the
registered handlers are inlined at each publish site.  Event-log appends
succeed in this model (durability failure is claim C6's concern), so a
`PubFact` trace entry doubles as the fact's log entry, and the Projector's
re-fetch by sequence id returns exactly the logged payload (claim C9). -/

/-- Per-connection state attached to the socket: `ws.userId`, `ws.chatId`
(Gateway-owned), `socket.currentChatId` (set by the Dispatcher's subscribe)
and the transport state. -/
structure Conn where
  userId : Option Nat
  chatId : Option Nat
  currentChatId : Option Nat
  isOpen : Bool
deriving DecidableEq

/-- A row of the `chats` table: the Room Authorization Record. -/
structure ChatRec where
  id_chat : Nat
  id_user1 : Nat
  id_user2 : Nat
deriving DecidableEq

/-- The domain facts published through the bus by the modelled flows, with
their payload fields. -/
inductive PubFact where
  | revoked (userId : Option Nat) (chatId : Option Nat) (socket : Nat)
  | selected (userId : Nat) (chatId : Nat) (socket : Nat) (lastMessageId : Nat)
  | connClosed (userId : Nat) (chatId : Option Nat) (socket : Nat)
  | incoming (chatId : Nat) (userId : Nat) (messageText : String)
  | projected (row : Option ProjRow)
  | userInRoom (userId : Nat) (chatId : Nat)
deriving DecidableEq

structure SysState where
  conns : List (Nat × Conn)
  clients : List (Nat × List Nat)
  rooms : Rooms
  chats : List ChatRec
  users : List UserRow
  messages : List MsgRow
  published : List PubFact
  outbox : List (Nat × String)
deriving DecidableEq

/-- JavaScript truthiness of a numeric id (`0` is falsy). -/
def truthy (n : Nat) : Bool := n != 0

def truthyO : Option Nat → Bool
  | none => false
  | some n => n != 0

def connsUpdate : List (Nat × Conn) → Nat → Conn → List (Nat × Conn)
  | [], _, _ => []
  | e :: rest, c, conn => if e.1 = c then (e.1, conn) :: rest
                          else e :: connsUpdate rest c conn

def connsLookup : List (Nat × Conn) → Nat → Option Conn
  | [], _ => none
  | e :: rest, c => if e.1 = c then some e.2 else connsLookup rest c

def getConn (s : SysState) (c : Nat) : Option Conn := connsLookup s.conns c

def setConn (s : SysState) (c : Nat) (conn : Conn) : SysState :=
  { s with conns := connsUpdate s.conns c conn }

def clientsLookupL : List (Nat × List Nat) → Nat → Option (List Nat)
  | [], _ => none
  | e :: rest, u => if e.1 = u then some e.2 else clientsLookupL rest u

def clientsLookup (s : SysState) (u : Nat) : Option (List Nat) :=
  clientsLookupL s.clients u

def clientsUpdateL : List (Nat × List Nat) → Nat → List Nat → List (Nat × List Nat)
  | [], _, _ => []
  | e :: rest, u, l => if e.1 = u then (e.1, l) :: rest
                       else e :: clientsUpdateL rest u l

/-- `Map.set`: update in place when the key exists, append otherwise. -/
def clientsSet (cl : List (Nat × List Nat)) (u : Nat) (l : List Nat) :
    List (Nat × List Nat) :=
  match clientsLookupL cl u with
  | some _ => clientsUpdateL cl u l
  | none => cl ++ [(u, l)]

def clientsDelete : List (Nat × List Nat) → Nat → List (Nat × List Nat)
  | [], _ => []
  | e :: rest, u => if e.1 = u then clientsDelete rest u
                    else e :: clientsDelete rest u

/-- `getChatParticipants(chatId)` of `src/database.js`. -/
def getChatParticipants (chats : List ChatRec) (chatId : Nat) :
    Option (Nat × Nat) :=
  (chats.find? (fun r => r.id_chat = chatId)).map
    (fun r => (r.id_user1, r.id_user2))

/-- Append a published fact (the fact trace doubles as the event log of the
model, see the section comment). -/
def pubFact (s : SysState) (f : PubFact) : SysState :=
  { s with published := s.published ++ [f] }

/-- The takeover check's predicate (`server.js` lines 391-393): another
socket of the same identity, distinct from the requester, whose `chatId` is
the requested room. -/
def takeoverPred (s : SysState) (c : Nat) (chatId : Nat) (c2 : Nat) : Bool :=
  decide (¬c2 = c) && (match getConn s c2 with
    | some conn2 => conn2.chatId == some chatId
    | none => false)

/-- The takeover block (`server.js` lines 395-413) applied to the found
socket `old`: build the `chat-revoked-by-new-tab` fact from the socket's
fields, clear its `chatId`, publish the fact — its optimistic delivery runs
the Dispatcher's revocation handler (`persistence-service.js` lines 172-186),
which unsubscribes the socket with `cleanRoom = false` — and push the
`chat.session.revoked` notice directly to the old socket. -/
def takeoverBlock (s : SysState) (old : Nat) : SysState :=
  match getConn s old with
  | none => s
  | some conn2 =>
    let sA := setConn s old { conn2 with chatId := none }
    let sB := pubFact sA (.revoked conn2.userId conn2.chatId old)
    let sC := { sB with rooms :=
      (if truthyO conn2.chatId then unsubscribeRoom sB.rooms old conn2.chatId false
       else sB.rooms) }
    { sC with outbox := sC.outbox ++ [(old, "chat.session.revoked")] }

/-- The authorized tail of `chat.select` (`server.js` lines 422-433) plus the
Dispatcher's `chat-selected-by-user` handler (`persistence-service.js` lines
122-156): set `ws.chatId`, publish the fact; the handler subscribes the
socket, records `currentChatId`, pushes `chat.history` when the queried
history is non-empty, and publishes `user-in-room`. -/
def selectAuthorized (s : SysState) (c uid chatId lastMessageId : Nat) : SysState :=
  match getConn s c with
  | none => s
  | some connNow =>
    let s2 := setConn s c { connNow with chatId := some chatId }
    let s3 := pubFact s2 (.selected uid chatId c lastMessageId)
    let s4 := { s3 with rooms := subscribeRoom s3.rooms c chatId }
    let s5 := setConn s4 c
      { connNow with chatId := some chatId, currentChatId := some chatId }
    let s6 := { s5 with outbox := s5.outbox
      ++ (if (getChatHistory s5.messages s5.users chatId).isEmpty then []
          else [(c, "chat.history")]) }
    pubFact s6 (.userInRoom uid chatId)

/-- `case 'chat.select'` (`server.js` lines 384-434). -/
def stepSelect (s : SysState) (c chatId lastMessageId : Nat) : SysState :=
  match getConn s c with
  | none => s
  | some conn =>
    if ¬truthy chatId then s
    else match conn.userId with
    | none => s
    | some uid =>
      if ¬truthy uid then s
      else match clientsLookup s uid with
      | none => s
      | some userConns =>
        let s1 := match userConns.find? (takeoverPred s c chatId) with
          | none => s
          | some old => takeoverBlock s old
        match getChatParticipants s1.chats chatId with
        | none => s1
        | some (u1, u2) =>
          if uid ≠ u1 ∧ uid ≠ u2 then s1
          else selectAuthorized s1 c uid chatId lastMessageId

/-- `wss.on('connection')`: a fresh socket with unset identity and room. -/
def stepConnect (s : SysState) (c : Nat) : SysState :=
  match getConn s c with
  | some _ => s
  | none => { s with conns := s.conns ++ [(c, ⟨none, none, none, true⟩)] }

/-- `case 'user.identify'` (`server.js` lines 351-381): set `ws.userId`,
ensure the identity's entry in `clients`, push the socket onto it. -/
def stepIdentify (s : SysState) (c uid : Nat) : SysState :=
  match getConn s c with
  | none => s
  | some conn =>
    let s1 := setConn s c { conn with userId := some uid }
    { s1 with clients :=
        clientsSet s1.clients uid ((clientsLookupL s1.clients uid).getD [] ++ [c]) }

/-- `case 'chat.message.new'` (`server.js` lines 437-455) plus the Projector
(`persistence-service.js` lines 23-59).  The published `incoming-message`
fact is appended to the log (its confirmed variant triggers the Projector,
whose re-fetch returns the same payload, claim C9); the Projector persists
the row and emits `message-projected` carrying the resolved row.  The
Dispatcher's `message-projected` handler receives that row as its argument,
destructures `payload`/`metadata` out of it — both `undefined` — and throws
on `payload.id_chat`; the escaping exception is caught by the bus, so no
broadcast is dispatched and no `message-dispatched` fact is emitted.
`CURRENT_TIMESTAMP` is modelled by the message counter. -/
def stepSend (s : SysState) (c : Nat) (text : String) : SysState :=
  match getConn s c with
  | none => s
  | some conn =>
    if ¬truthyO conn.userId then s
    else if ¬truthyO conn.chatId then s
    else match conn.userId, conn.chatId with
    | some uid, some chatId =>
      let s1 := pubFact s (.incoming chatId uid text)
      let r := addMessage s1.messages s1.users (nextMessageId s1.messages) chatId uid text
      let s2 := { s1 with messages := r.1 }
      pubFact s2 (.projected r.2)
    | _, _ => s

/-- `ws.on('close')` (`server.js` lines 463-497): mark the transport closed;
an unidentified socket is discarded silently; otherwise shrink the
identity's connection list (deleting the entry when it was the last),
publish `connection-closed`, whose optimistic delivery runs both registered
`connection-closed` handlers of the Dispatcher. -/
def stepClose (s : SysState) (c : Nat) : SysState :=
  match getConn s c with
  | none => s
  | some conn =>
    let s0 := setConn s c { conn with isOpen := false }
    if ¬truthyO conn.userId then s0
    else match conn.userId with
    | none => s0
    | some uid =>
      match clientsLookup s0 uid with
      | none => s0
      | some userConns =>
        let remaining := userConns.filter (fun x => ¬x = c)
        let s1 := if remaining.length > 0
          then { s0 with clients := clientsSet s0.clients uid remaining }
          else { s0 with clients := clientsDelete s0.clients uid }
        let s2 := pubFact s1 (.connClosed uid conn.chatId c)
        let s3 := { s2 with rooms := onConnClosedA s2.rooms c conn.chatId }
        { s3 with rooms := onConnClosedB s3.rooms c conn.chatId }

inductive Op where
  | connect (c : Nat)
  | identify (c : Nat) (userId : Nat)
  | select (c : Nat) (chatId : Nat) (lastMessageId : Nat)
  | sendMessage (c : Nat) (text : String)
  | close (c : Nat)
deriving DecidableEq

def step (s : SysState) : Op → SysState
  | .connect c => stepConnect s c
  | .identify c u => stepIdentify s c u
  | .select c r last => stepSelect s c r last
  | .sendMessage c t => stepSend s c t
  | .close c => stepClose s c

def run (s : SysState) : List Op → SysState
  | [] => s
  | op :: ops => run (step s op) ops

/-- The boot state: no connections, no identities, no room memberships; the
`chats`, `users` and `messages` tables hold whatever the database holds. -/
def initState (chats : List ChatRec) (users : List UserRow)
    (messages : List MsgRow) : SysState :=
  ⟨[], [], [], chats, users, messages, [], []⟩

/-- A run whose every operation satisfies the guard `G` in the state where
it fires. -/
inductive GRun (G : SysState → Op → Bool) : SysState → List Op → SysState → Prop where
  | nil (s : SysState) : GRun G s [] s
  | cons (s : SysState) (op : Op) (ops : List Op) (s' : SysState) :
      G s op = true → GRun G (step s op) ops s' → GRun G s (op :: ops) s'

/-! ## Claim C3: single-room membership

The claim asserts that in every reachable state a connection appears in at
most one room's member set, even when a connection selects room B while
still active in room A.  The code refutes this: the Gateway never
unsubscribes the requesting socket from its previous room (the takeover
check only inspects *other* sockets of the identity), and
`ChatDispatcher.subscribe` adds without removing.  The amended claim
restricts the runs: selects fired while the connection already has a
different active room are excluded. -/

def c3Chats : List ChatRec := [⟨1, 1, 2⟩, ⟨2, 1, 3⟩]

def c3Ops : List Op := [.connect 1, .identify 1 1, .select 1 1 0, .select 1 2 0]

/-- C3 counterexample: after `connect; identify 1; select room 1; select
room 2` — a single tab switching rooms — connection 1 is in both room 1's
and room 2's member sets, so the claimed invariant fails on a reachable
state. -/
theorem C3_counterexample :
    (¬(∀ s : SysState, (∃ ops, run (initState c3Chats [] []) ops = s) →
      ∀ c r r', c ∈ membersOf s.rooms r → c ∈ membersOf s.rooms r' → r = r'))
    ∧ (1 : Nat) ∈ membersOf (run (initState c3Chats [] []) c3Ops).rooms 1
    ∧ (1 : Nat) ∈ membersOf (run (initState c3Chats [] []) c3Ops).rooms 2 := by
  refine ⟨?_, by decide, by decide⟩
  intro h
  have h2 := h (run (initState c3Chats [] []) c3Ops) ⟨c3Ops, rfl⟩ 1 1 2
    (by decide) (by decide)
  exact absurd h2 (by decide)

/-- The amended claim's run restriction: a `select` only fires when the
requesting connection has no active room or re-selects its current room. -/
def selGuard (s : SysState) : Op → Bool
  | .select c r _ =>
    match getConn s c with
    | none => true
    | some conn => conn.chatId == none || conn.chatId == some r
  | _ => true

/-- The membership invariant: every member of a room's set is a live
connection handle whose `ws.chatId` is that (non-zero) room. -/
def InvMem (s : SysState) : Prop :=
  ∀ c r, c ∈ membersOf s.rooms r →
    ∃ conn, getConn s c = some conn ∧ conn.chatId = some r ∧ r ≠ 0

theorem mem_subscribe (rooms : Rooms) (c rr x r : Nat) :
    x ∈ membersOf (subscribeRoom rooms c rr) r ↔
      (r = rr ∧ x = c) ∨ x ∈ membersOf rooms r := by
  unfold subscribeRoom membersOf
  cases hms : roomsLookup rooms rr with
  | some ms =>
    rw [roomsLookup_update]
    by_cases hq : r = rr
    · subst hq
      simp [hms]
    · simp [hms, hq]
  | none =>
    rw [roomsLookup_append]
    by_cases hq : r = rr
    · subst hq
      simp [hms]
    · cases hl : roomsLookup rooms r <;> simp [hl, hq]

theorem mem_unsub_sub (rooms : Rooms) (c : Nat) (ch : Option Nat) (clean : Bool)
    (x r : Nat) :
    x ∈ membersOf (unsubscribeRoom rooms c ch clean) r → x ∈ membersOf rooms r := by
  unfold unsubscribeRoom membersOf
  match ch with
  | none => exact fun h => h
  | some rr =>
    by_cases hr : rr = 0
    · simp [hr]
    · simp only [if_neg hr]
      cases hms : roomsLookup rooms rr with
      | none => exact fun h => h
      | some ms =>
        by_cases hdel : clean ∧ (ms.erase c).card = 0
        · simp only [if_pos hdel]
          rw [roomsLookup_delete]
          by_cases hq : r = rr
          · simp [hq]
          · simp [hq]
        · simp only [if_neg hdel]
          rw [roomsLookup_update]
          by_cases hq : r = rr
          · subst hq
            simp [hms]
          · simp [hq]

theorem not_mem_unsub_self (rooms : Rooms) (c r : Nat) (clean : Bool)
    (hr : ¬r = 0) :
    c ∉ membersOf (unsubscribeRoom rooms c (some r) clean) r := by
  unfold unsubscribeRoom membersOf
  simp only [if_neg hr]
  cases hms : roomsLookup rooms r with
  | none => simp [hms]
  | some ms =>
    by_cases hdel : clean ∧ (ms.erase c).card = 0
    · simp only [if_pos hdel]
      rw [roomsLookup_delete]
      simp
    · simp only [if_neg hdel]
      rw [roomsLookup_update]
      simp [hms]

theorem connsLookup_update (l : List (Nat × Conn)) (c : Nat) (conn : Conn) (x : Nat) :
    connsLookup (connsUpdate l c conn) x
      = if (connsLookup l c).isSome ∧ x = c then some conn
        else connsLookup l x := by
  induction l with
  | nil => simp [connsUpdate, connsLookup]
  | cons e rest ih =>
    by_cases h1 : e.1 = c
    · by_cases h2 : x = c
      · subst h2
        simp [connsUpdate, connsLookup, h1]
      · have h3 : ¬c = x := fun hh => h2 hh.symm
        simp [connsUpdate, connsLookup, h1, h2, h3]
    · by_cases h2 : e.1 = x
      · have h3 : ¬x = c := fun hh => h1 (h2.trans hh)
        simp [connsUpdate, connsLookup, h1, h2, h3]
      · simp [connsUpdate, connsLookup, h1, h2, ih]

theorem connsLookup_append (l : List (Nat × Conn)) (c : Nat) (conn : Conn) (x : Nat) :
    connsLookup (l ++ [(c, conn)]) x
      = match connsLookup l x with
        | some v => some v
        | none => if x = c then some conn else none := by
  induction l with
  | nil =>
    by_cases h : c = x
    · subst h
      simp [connsLookup]
    · have h2 : ¬x = c := fun hh => h hh.symm
      simp [connsLookup, h, h2]
  | cons e rest ih =>
    by_cases h : e.1 = x
    · simp [connsLookup, h]
    · simp [connsLookup, h, ih]

theorem getConn_pubFact (s : SysState) (f : PubFact) (x : Nat) :
    getConn (pubFact s f) x = getConn s x := rfl

theorem rooms_pubFact (s : SysState) (f : PubFact) : (pubFact s f).rooms = s.rooms := rfl

theorem getConn_takeover_other (s : SysState) (old x : Nat) (h : ¬x = old) :
    getConn (takeoverBlock s old) x = getConn s x := by
  unfold takeoverBlock
  cases hc : getConn s old with
  | none => rfl
  | some conn2 =>
    show connsLookup (connsUpdate s.conns old _) x = _
    rw [connsLookup_update]
    simp only [h, and_false, if_false]
    rfl

theorem takeoverBlock_chats (s : SysState) (old : Nat) :
    (takeoverBlock s old).chats = s.chats := by
  unfold takeoverBlock
  cases getConn s old <;> rfl

theorem takeoverBlock_rooms (s : SysState) (old : Nat) (conn2 : Conn)
    (h : getConn s old = some conn2) :
    (takeoverBlock s old).rooms
      = if truthyO conn2.chatId
        then unsubscribeRoom s.rooms old conn2.chatId false
        else s.rooms := by
  unfold takeoverBlock
  rw [h]
  rfl

theorem takeoverBlock_outbox (s : SysState) (old : Nat) (conn2 : Conn)
    (h : getConn s old = some conn2) :
    (takeoverBlock s old).outbox = s.outbox ++ [(old, "chat.session.revoked")] := by
  unfold takeoverBlock
  rw [h]
  rfl

/-- `takeoverBlock` preserves the membership invariant. -/
theorem invMem_takeover (s : SysState) (old : Nat) (hI : InvMem s) :
    InvMem (takeoverBlock s old) := by
  cases hc : getConn s old with
  | none =>
    unfold takeoverBlock
    rw [hc]
    exact hI
  | some conn2 =>
    intro x r hx
    rw [takeoverBlock_rooms s old conn2 hc] at hx
    by_cases hxo : x = old
    · subst hxo
      exfalso
      by_cases ht : truthyO conn2.chatId = true
      · rw [if_pos ht] at hx
        have hx0 := mem_unsub_sub _ _ _ _ _ _ hx
        obtain ⟨conn', hconn', hchat', hr0⟩ := hI x r hx0
        rw [hc] at hconn'
        cases hconn'
        rw [hchat'] at hx
        exact not_mem_unsub_self s.rooms x r false hr0 hx
      · rw [if_neg ht] at hx
        obtain ⟨conn', hconn', hchat', hr0⟩ := hI x r hx
        rw [hc] at hconn'
        cases hconn'
        rw [hchat'] at ht
        simp [truthyO] at ht
        exact hr0 ht
    · have hx0 : x ∈ membersOf s.rooms r := by
        by_cases ht : truthyO conn2.chatId = true
        · rw [if_pos ht] at hx
          exact mem_unsub_sub _ _ _ _ _ _ hx
        · rwa [if_neg ht] at hx
      obtain ⟨conn', hconn', hchat', hr0⟩ := hI x r hx0
      refine ⟨conn', ?_, hchat', hr0⟩
      rw [getConn_takeover_other s old x hxo]
      exact hconn'

theorem selectAuthorized_rooms (s : SysState) (c uid chatId last : Nat)
    (conn : Conn) (h : getConn s c = some conn) :
    (selectAuthorized s c uid chatId last).rooms = subscribeRoom s.rooms c chatId := by
  unfold selectAuthorized
  rw [h]
  rfl

theorem selectAuthorized_getConn_self (s : SysState) (c uid chatId last : Nat)
    (conn : Conn) (h : getConn s c = some conn) :
    getConn (selectAuthorized s c uid chatId last) c
      = some { conn with chatId := some chatId, currentChatId := some chatId } := by
  unfold selectAuthorized
  rw [h]
  show connsLookup (connsUpdate (connsUpdate s.conns c _) c _) c = _
  rw [connsLookup_update, connsLookup_update]
  simp only [getConn] at h
  simp [h]

theorem selectAuthorized_getConn_other (s : SysState) (c uid chatId last x : Nat)
    (hx : ¬x = c) :
    getConn (selectAuthorized s c uid chatId last) x = getConn s x := by
  unfold selectAuthorized
  cases h : getConn s c with
  | none => rfl
  | some conn =>
    show connsLookup (connsUpdate (connsUpdate s.conns c _) c _) x = _
    rw [connsLookup_update, connsLookup_update]
    simp only [hx, and_false, if_false]
    rw [connsLookup_update]
    simp only [hx, and_false, if_false]
    rfl

theorem selectAuthorized_chats (s : SysState) (c uid chatId last : Nat) :
    (selectAuthorized s c uid chatId last).chats = s.chats := by
  unfold selectAuthorized
  cases h : getConn s c with
  | none => rfl
  | some conn => rfl

theorem selectAuthorized_outbox_mem (s : SysState) (c uid chatId last : Nat)
    (p : Nat × String) (hp : p ∈ s.outbox) :
    p ∈ (selectAuthorized s c uid chatId last).outbox := by
  unfold selectAuthorized
  cases h : getConn s c with
  | none => exact hp
  | some conn =>
    exact List.mem_append_left _ hp

/-- `selectAuthorized` preserves the membership invariant, given that the
requesting connection's prior room (if any) is the requested room and the
requested room id is truthy. -/
theorem invMem_selectAuth (s : SysState) (c uid chatId last : Nat)
    (hI : InvMem s)
    (hch : ∀ conn, getConn s c = some conn →
      conn.chatId = none ∨ conn.chatId = some chatId)
    (hr0 : chatId ≠ 0) :
    InvMem (selectAuthorized s c uid chatId last) := by
  cases hc : getConn s c with
  | none =>
    unfold selectAuthorized
    rw [hc]
    exact hI
  | some conn =>
    intro x r hx
    rw [selectAuthorized_rooms s c uid chatId last conn hc] at hx
    rw [mem_subscribe] at hx
    by_cases hxc : x = c
    · subst hxc
      have hreq : r = chatId := by
        rcases hx with ⟨hr, _⟩ | hx
        · exact hr
        · obtain ⟨conn', hconn', hchat', _⟩ := hI x r hx
          rw [hc] at hconn'
          cases hconn'
          rcases hch _ hc with hnone | hsome
          · rw [hnone] at hchat'
            cases hchat'
          · rw [hsome] at hchat'
            exact (Option.some.inj hchat').symm
      subst hreq
      exact ⟨{ conn with chatId := some r, currentChatId := some r },
        selectAuthorized_getConn_self s x uid r last conn hc, rfl, hr0⟩
    · rcases hx with ⟨_, hxeq⟩ | hx
      · exact absurd hxeq hxc
      · obtain ⟨conn', hconn', hchat', hrr⟩ := hI x r hx
        exact ⟨conn', by
          rw [selectAuthorized_getConn_other s c uid chatId last x hxc]
          exact hconn', hchat', hrr⟩

theorem truthy_ne_zero (n : Nat) (h : truthy n = true) : n ≠ 0 := by
  simpa [truthy] using h

theorem mem_onConnClosedA_sub (rooms : Rooms) (c : Nat) (ch : Option Nat)
    (x r : Nat) (hx : x ∈ membersOf (onConnClosedA rooms c ch) r) :
    x ∈ membersOf rooms r := by
  cases ch with
  | none => exact hx
  | some r0 =>
    unfold onConnClosedA at hx
    dsimp only at hx
    by_cases h0 : r0 = 0
    · rw [if_pos h0] at hx
      exact hx
    · rw [if_neg h0] at hx
      exact mem_unsub_sub _ _ _ _ _ _ hx

theorem mem_onConnClosedB_sub (rooms : Rooms) (c : Nat) (ch : Option Nat)
    (x r : Nat) (hx : x ∈ membersOf (onConnClosedB rooms c ch) r) :
    x ∈ membersOf rooms r := by
  cases ch with
  | none => exact hx
  | some r0 =>
    unfold onConnClosedB at hx
    dsimp only at hx
    by_cases h0 : r0 = 0
    · rw [if_pos h0] at hx
      exact hx
    · rw [if_neg h0] at hx
      exact mem_unsub_sub _ _ _ _ _ _ hx

/-- Every operation of a `selGuard`-guarded run preserves the membership
invariant. -/
theorem invMem_step (s : SysState) (op : Op) (hg : selGuard s op = true)
    (hI : InvMem s) : InvMem (step s op) := by
  cases op with
  | connect c =>
    show InvMem (stepConnect s c)
    unfold stepConnect
    cases hc : getConn s c with
    | some conn => exact hI
    | none =>
      intro x r hx
      obtain ⟨conn', hconn', hchat', hrr⟩ := hI x r hx
      refine ⟨conn', ?_, hchat', hrr⟩
      show connsLookup (s.conns ++ [(c, _)]) x = some conn'
      rw [connsLookup_append]
      simp only [getConn] at hconn'
      simp [hconn']
  | identify c u =>
    show InvMem (stepIdentify s c u)
    unfold stepIdentify
    cases hc : getConn s c with
    | none => exact hI
    | some conn =>
      intro x r hx
      obtain ⟨conn', hconn', hchat', hrr⟩ := hI x r hx
      by_cases hxc : x = c
      · subst hxc
        rw [hc] at hconn'
        cases hconn'
        refine ⟨{ conn with userId := some u }, ?_, hchat', hrr⟩
        show connsLookup (connsUpdate s.conns x _) x = _
        rw [connsLookup_update]
        simp only [getConn] at hc
        simp [hc]
      · refine ⟨conn', ?_, hchat', hrr⟩
        show connsLookup (connsUpdate s.conns c _) x = _
        rw [connsLookup_update]
        simp only [hxc, and_false, if_false]
        exact hconn'
  | select c chatId last =>
    show InvMem (stepSelect s c chatId last)
    unfold stepSelect
    cases hc : getConn s c with
    | none => exact hI
    | some conn =>
      dsimp only
      by_cases hrt : truthy chatId = true
      · rw [if_neg (by simp [hrt])]
        cases huid : conn.userId with
        | none => exact hI
        | some uid =>
          dsimp only
          by_cases hut : truthy uid = true
          · rw [if_neg (by simp [hut])]
            cases hcl : clientsLookup s uid with
            | none => exact hI
            | some userConns =>
              dsimp only
              have hguard : conn.chatId = none ∨ conn.chatId = some chatId := by
                have hg2 := hg
                simp only [selGuard, hc, Bool.or_eq_true, beq_iff_eq] at hg2
                exact hg2
              cases hfind : userConns.find? (takeoverPred s c chatId) with
              | none =>
                dsimp only
                cases hpart : getChatParticipants s.chats chatId with
                | none => exact hI
                | some p =>
                  obtain ⟨u1, u2⟩ := p
                  dsimp only
                  by_cases hne : uid ≠ u1 ∧ uid ≠ u2
                  · rw [if_pos hne]
                    exact hI
                  · rw [if_neg hne]
                    refine invMem_selectAuth s c uid chatId last hI ?_
                      (truthy_ne_zero chatId hrt)
                    intro conn0 hconn0
                    rw [hc] at hconn0
                    cases hconn0
                    exact hguard
              | some old =>
                dsimp only
                rw [takeoverBlock_chats]
                have hI1 : InvMem (takeoverBlock s old) := invMem_takeover s old hI
                have hold : takeoverPred s c chatId old = true := List.find?_some hfind
                have hoc : ¬old = c := by
                  simp only [takeoverPred, Bool.and_eq_true, decide_eq_true_eq] at hold
                  exact hold.1
                cases hpart : getChatParticipants s.chats chatId with
                | none => exact hI1
                | some p =>
                  obtain ⟨u1, u2⟩ := p
                  dsimp only
                  by_cases hne : uid ≠ u1 ∧ uid ≠ u2
                  · rw [if_pos hne]
                    exact hI1
                  · rw [if_neg hne]
                    refine invMem_selectAuth (takeoverBlock s old) c uid chatId last
                      hI1 ?_ (truthy_ne_zero chatId hrt)
                    intro conn0 hconn0
                    rw [getConn_takeover_other s old c (fun hh => hoc hh.symm)]
                      at hconn0
                    rw [hc] at hconn0
                    cases hconn0
                    exact hguard
          · rw [if_pos hut]
            exact hI
      · rw [if_pos hrt]
        exact hI
  | sendMessage c text =>
    show InvMem (stepSend s c text)
    unfold stepSend
    cases hc : getConn s c with
    | none => exact hI
    | some conn =>
      by_cases h1 : truthyO conn.userId = true
      · by_cases h2 : truthyO conn.chatId = true
        · simp only [h1, h2, Bool.not_true, Bool.false_eq_true, if_false]
          cases huid : conn.userId with
          | none => exact hI
          | some uid =>
            cases hch : conn.chatId with
            | none => exact hI
            | some chatId =>
              intro x r hx
              exact hI x r hx
        · simp [h1, h2]
          exact hI
      · simp [h1]
        exact hI
  | close c =>
    show InvMem (stepClose s c)
    unfold stepClose
    cases hc : getConn s c with
    | none => exact hI
    | some conn =>
      have hconnSelf : ∀ cc : Conn, connsLookup (connsUpdate s.conns c cc) c
          = some cc := by
        intro cc
        rw [connsLookup_update]
        simp only [getConn] at hc
        simp [hc]
      have hconnPres : ∀ (cc : Conn) (x : Nat), ¬x = c →
          connsLookup (connsUpdate s.conns c cc) x = getConn s x := by
        intro cc x hx
        rw [connsLookup_update]
        simp only [hx, and_false, if_false]
        rfl
      have hmain : ∀ (st : SysState) (uo : Option Nat),
          st.conns = connsUpdate s.conns c
            { conn with userId := uo, isOpen := false } →
          (∀ x r, x ∈ membersOf st.rooms r → x ∈ membersOf s.rooms r) →
          InvMem st := by
        intro st uo hcs hrs x r hx
        obtain ⟨conn', hconn', hchat', hrr⟩ := hI x r (hrs x r hx)
        by_cases hxc : x = c
        · subst hxc
          rw [hc] at hconn'
          cases hconn'
          refine ⟨{ conn with userId := uo, isOpen := false }, ?_, hchat', hrr⟩
          show connsLookup st.conns x = _
          rw [hcs]
          exact hconnSelf _
        · refine ⟨conn', ?_, hchat', hrr⟩
          show connsLookup st.conns x = _
          rw [hcs, hconnPres _ x hxc]
          exact hconn'
      dsimp only
      by_cases h1 : truthyO conn.userId = true
      · rw [if_neg (by simp [h1])]
        cases huid : conn.userId with
        | none => exact hmain _ none rfl (fun x r hx => hx)
        | some uid =>
          dsimp only
          cases hcl : clientsLookup
              (setConn s c { conn with userId := some uid, isOpen := false })
              uid with
          | none => exact hmain _ (some uid) rfl (fun x r hx => hx)
          | some userConns =>
            dsimp only
            by_cases hrem : (userConns.filter (fun x => ¬x = c)).length > 0
            · rw [if_pos hrem]
              exact hmain _ (some uid) rfl (fun x r hx =>
                mem_onConnClosedA_sub _ _ _ _ _ (mem_onConnClosedB_sub _ _ _ _ _ hx))
            · rw [if_neg hrem]
              exact hmain _ (some uid) rfl (fun x r hx =>
                mem_onConnClosedA_sub _ _ _ _ _ (mem_onConnClosedB_sub _ _ _ _ _ hx))
      · rw [if_pos h1]
        exact hmain _ conn.userId rfl (fun x r hx => hx)

theorem invMem_grun (ops : List Op) : ∀ (s s' : SysState),
    GRun selGuard s ops s' → InvMem s → InvMem s' := by
  induction ops with
  | nil =>
    intro s s' h hI
    cases h
    exact hI
  | cons op ops ih =>
    intro s s' h hI
    cases h with
    | cons _ _ _ _ hg htail => exact ih _ _ htail (invMem_step s op hg hI)

theorem invMem_init (chats : List ChatRec) (users : List UserRow)
    (messages : List MsgRow) : InvMem (initState chats users messages) := by
  intro c r hx
  simp [initState, membersOf, roomsLookup] at hx

/-- Claim C3, amended.  The original claim is false (see
`C3_counterexample`): the Gateway never unsubscribes the requesting socket
from its previous room, so a single tab that selects room A and then room B
is a member of both.  The amended claim restricts the runs to those in
which every `select` is issued by a connection with no active room or
re-selecting its current room: under that guard, every reachable state has
each connection in at most one room's member set. -/
theorem C3_amended (chats : List ChatRec) (users : List UserRow)
    (messages : List MsgRow) (ops : List Op) (s : SysState)
    (hrun : GRun selGuard (initState chats users messages) ops s)
    (c r r' : Nat) (h1 : c ∈ membersOf s.rooms r)
    (h2 : c ∈ membersOf s.rooms r') :
    r = r' := by
  obtain ⟨conn1, hc1, hch1, _⟩ :=
    invMem_grun ops _ s hrun (invMem_init chats users messages) c r h1
  obtain ⟨conn2, hc2, hch2, _⟩ :=
    invMem_grun ops _ s hrun (invMem_init chats users messages) c r' h2
  rw [hc1] at hc2
  cases hc2
  rw [hch1] at hch2
  exact Option.some.inj hch2

/-- Witness for `C3_amended`: the guarded run `connect; identify 1;
select room 1` is accepted, its final state has connection 1 in room 1's
member set, and the theorem applies. -/
theorem C3_amended_witness : (1 : Nat) = 1 := by
  have hrun : GRun selGuard (initState c3Chats [] [])
      [.connect 1, .identify 1 1, .select 1 1 0]
      (run (initState c3Chats [] []) [.connect 1, .identify 1 1, .select 1 1 0]) := by
    refine GRun.cons _ _ _ _ (by decide) ?_
    refine GRun.cons _ _ _ _ (by decide) ?_
    refine GRun.cons _ _ _ _ (by decide) ?_
    exact GRun.nil _
  exact C3_amended c3Chats [] [] _ _ hrun 1 1 1 (by decide) (by decide)


/-! ## Claim C4: silent rejection of unauthorized selection

`chat.select` authorizes after the takeover scan, so the claim "no state
change, no fact published" needs the takeover scan to come up empty for an
unauthorized caller.  That holds for every state reachable under the
specified identification protocol ("`identify(userId)`: valid from
`Unidentified` ... No transition back"): a socket found by the scan is
registered under the requester's identity, so it carries that identity, and
its active room was set by an authorized selection of that same identity —
contradicting the requester being unauthorized.  `identGuard` captures that
protocol: an `identify` only fires on a socket that has no identity yet. -/

def identGuard (s : SysState) : Op → Bool
  | .identify c _ =>
    match getConn s c with
    | none => true
    | some conn => conn.userId == none
  | _ => true

/-- Every socket registered under identity `u` in the `clients` index is a
live connection entry whose `ws.userId` is `u`. -/
def InvClients (s : SysState) : Prop :=
  ∀ u cs, clientsLookup s u = some cs → ∀ c, c ∈ cs →
    ∃ conn, getConn s c = some conn ∧ conn.userId = some u

/-- Every connection with an active room carries an identity that is one of
the room's two participants. -/
def InvAuth (s : SysState) : Prop :=
  ∀ c conn r, getConn s c = some conn → conn.chatId = some r →
    ∃ uid u1 u2, conn.userId = some uid ∧
      getChatParticipants s.chats r = some (u1, u2) ∧ (uid = u1 ∨ uid = u2)

theorem clientsLookupL_update (l : List (Nat × List Nat)) (u : Nat)
    (v : List Nat) (x : Nat) :
    clientsLookupL (clientsUpdateL l u v) x
      = if (clientsLookupL l u).isSome ∧ x = u then some v
        else clientsLookupL l x := by
  induction l with
  | nil => simp [clientsUpdateL, clientsLookupL]
  | cons e rest ih =>
    by_cases h1 : e.1 = u
    · by_cases h2 : x = u
      · subst h2
        simp [clientsUpdateL, clientsLookupL, h1]
      · have h3 : ¬u = x := fun hh => h2 hh.symm
        simp [clientsUpdateL, clientsLookupL, h1, h2, h3]
    · by_cases h2 : e.1 = x
      · have h3 : ¬x = u := fun hh => h1 (h2.trans hh)
        simp [clientsUpdateL, clientsLookupL, h1, h2, h3]
      · simp [clientsUpdateL, clientsLookupL, h1, h2, ih]

theorem clientsLookupL_append (l : List (Nat × List Nat)) (u : Nat)
    (v : List Nat) (x : Nat) :
    clientsLookupL (l ++ [(u, v)]) x
      = match clientsLookupL l x with
        | some w => some w
        | none => if x = u then some v else none := by
  induction l with
  | nil =>
    by_cases h : u = x
    · subst h
      simp [clientsLookupL]
    · have h2 : ¬x = u := fun hh => h hh.symm
      simp [clientsLookupL, h, h2]
  | cons e rest ih =>
    by_cases h : e.1 = x
    · simp [clientsLookupL, h]
    · simp [clientsLookupL, h, ih]

theorem clientsLookupL_set (l : List (Nat × List Nat)) (u : Nat)
    (v : List Nat) (x : Nat) :
    clientsLookupL (clientsSet l u v) x
      = if x = u then some v else clientsLookupL l x := by
  unfold clientsSet
  cases hl : clientsLookupL l u with
  | some w =>
    rw [clientsLookupL_update]
    by_cases h : x = u
    · simp [hl, h]
    · simp [hl, h]
  | none =>
    rw [clientsLookupL_append]
    by_cases h : x = u
    · subst h
      rw [hl]
    · cases hx : clientsLookupL l x with
      | some w => simp [hx, h]
      | none => simp [hx, h]

theorem clientsLookupL_delete (l : List (Nat × List Nat)) (u : Nat) (x : Nat) :
    clientsLookupL (clientsDelete l u) x
      = if x = u then none else clientsLookupL l x := by
  induction l with
  | nil => simp [clientsDelete, clientsLookupL]
  | cons e rest ih =>
    by_cases h1 : e.1 = u
    · by_cases h2 : x = u
      · subst h2
        simp [clientsDelete, clientsLookupL, h1, ih]
      · have h3 : ¬e.1 = x := fun hh => h2 (hh.symm.trans h1)
        have h4 : ¬u = x := fun hh => h2 hh.symm
        simp [clientsDelete, clientsLookupL, h1, ih, h2, h3, h4]
    · by_cases h2 : e.1 = x
      · have h3 : ¬x = u := fun hh => h1 (h2.trans hh)
        simp [clientsDelete, clientsLookupL, h1, h2, h3]
      · simp [clientsDelete, clientsLookupL, h1, h2, ih]

theorem takeoverBlock_getConn_self (s : SysState) (old : Nat) (conn2 : Conn)
    (h : getConn s old = some conn2) :
    getConn (takeoverBlock s old) old = some { conn2 with chatId := none } := by
  unfold takeoverBlock
  rw [h]
  show connsLookup (connsUpdate s.conns old _) old = _
  rw [connsLookup_update]
  simp only [getConn] at h
  simp [h]

theorem takeoverBlock_clients (s : SysState) (old : Nat) :
    (takeoverBlock s old).clients = s.clients := by
  unfold takeoverBlock
  cases getConn s old with
  | none => rfl
  | some conn2 => rfl

theorem selectAuthorized_clients (s : SysState) (c uid chatId last : Nat) :
    (selectAuthorized s c uid chatId last).clients = s.clients := by
  unfold selectAuthorized
  cases getConn s c with
  | none => rfl
  | some conn => rfl

theorem invC4_takeover (s : SysState) (old : Nat)
    (hC : InvClients s) (hA : InvAuth s) :
    InvClients (takeoverBlock s old) ∧ InvAuth (takeoverBlock s old) := by
  constructor
  · intro u cs hcs c' hc'
    have hcs2 : clientsLookup s u = some cs := by
      simpa [clientsLookup, takeoverBlock_clients] using hcs
    obtain ⟨conn', hconn', hu'⟩ := hC u cs hcs2 c' hc'
    by_cases hxo : c' = old
    · subst hxo
      exact ⟨{ conn' with chatId := none },
        takeoverBlock_getConn_self s c' conn' hconn', hu'⟩
    · exact ⟨conn', by
        rw [getConn_takeover_other s old c' hxo]
        exact hconn', hu'⟩
  · intro c' conn' r hconn' hchat'
    by_cases hxo : c' = old
    · subst hxo
      cases hgo : getConn s c' with
      | none =>
        rw [show takeoverBlock s c' = s from by
          unfold takeoverBlock
          rw [hgo]] at hconn'
        obtain ⟨uid0, v1, v2, ha, hb, hc3⟩ := hA c' conn' r hconn' hchat'
        exact ⟨uid0, v1, v2, ha, by rw [takeoverBlock_chats]; exact hb, hc3⟩
      | some conn2 =>
        rw [takeoverBlock_getConn_self s c' conn2 hgo] at hconn'
        cases hconn'
        simp at hchat'
    · rw [getConn_takeover_other s old c' hxo] at hconn'
      obtain ⟨uid0, v1, v2, ha, hb, hc3⟩ := hA c' conn' r hconn' hchat'
      exact ⟨uid0, v1, v2, ha, by rw [takeoverBlock_chats]; exact hb, hc3⟩

theorem invC4_selectAuth (s : SysState) (c uid chatId last : Nat) (conn : Conn)
    (hc : getConn s c = some conn) (huid : conn.userId = some uid)
    (u1 u2 : Nat) (hpart : getChatParticipants s.chats chatId = some (u1, u2))
    (hor : uid = u1 ∨ uid = u2)
    (hC : InvClients s) (hA : InvAuth s) :
    InvClients (selectAuthorized s c uid chatId last) ∧
      InvAuth (selectAuthorized s c uid chatId last) := by
  constructor
  · intro u cs hcs c' hc'
    have hcs2 : clientsLookup s u = some cs := by
      simpa [clientsLookup, selectAuthorized_clients] using hcs
    obtain ⟨conn', hconn', hu'⟩ := hC u cs hcs2 c' hc'
    by_cases hxc : c' = c
    · subst hxc
      rw [hc] at hconn'
      cases hconn'
      exact ⟨{ conn with chatId := some chatId, currentChatId := some chatId },
        selectAuthorized_getConn_self s c' uid chatId last conn hc, hu'⟩
    · exact ⟨conn', by
        rw [selectAuthorized_getConn_other s c uid chatId last c' hxc]
        exact hconn', hu'⟩
  · intro c' conn' r hconn' hchat'
    by_cases hxc : c' = c
    · subst hxc
      rw [selectAuthorized_getConn_self s c' uid chatId last conn hc] at hconn'
      cases hconn'
      have hr : chatId = r := by simpa using hchat'
      subst hr
      refine ⟨uid, u1, u2, huid, ?_, hor⟩
      rw [selectAuthorized_chats]
      exact hpart
    · rw [selectAuthorized_getConn_other s c uid chatId last c' hxc] at hconn'
      obtain ⟨uid0, v1, v2, ha, hb, hc3⟩ := hA c' conn' r hconn' hchat'
      exact ⟨uid0, v1, v2, ha, by rw [selectAuthorized_chats]; exact hb, hc3⟩

theorem invC4_step (s : SysState) (op : Op) (hg : identGuard s op = true)
    (hC : InvClients s) (hA : InvAuth s) :
    InvClients (step s op) ∧ InvAuth (step s op) := by
  cases op with
  | connect c =>
    show InvClients (stepConnect s c) ∧ InvAuth (stepConnect s c)
    unfold stepConnect
    cases hc : getConn s c with
    | some conn => exact ⟨hC, hA⟩
    | none =>
      constructor
      · intro u cs hcs c' hc'
        obtain ⟨conn', hconn', hu'⟩ := hC u cs hcs c' hc'
        refine ⟨conn', ?_, hu'⟩
        show connsLookup (s.conns ++ [(c, _)]) c' = _
        rw [connsLookup_append]
        simp only [getConn] at hconn'
        simp [hconn']
      · intro c' conn' r hconn' hchat'
        have hconn2 : connsLookup (s.conns ++ [(c, ⟨none, none, none, true⟩)]) c'
            = some conn' := hconn'
        rw [connsLookup_append] at hconn2
        cases hl : connsLookup s.conns c' with
        | some v =>
          simp only [hl] at hconn2
          cases hconn2
          obtain ⟨uid0, v1, v2, ha, hb, hc3⟩ := hA c' conn' r hl hchat'
          exact ⟨uid0, v1, v2, ha, hb, hc3⟩
        | none =>
          simp only [hl] at hconn2
          by_cases hcc : c' = c
          · rw [if_pos hcc] at hconn2
            cases hconn2
            simp at hchat'
          · rw [if_neg hcc] at hconn2
            cases hconn2
  | identify c u =>
    show InvClients (stepIdentify s c u) ∧ InvAuth (stepIdentify s c u)
    unfold stepIdentify
    cases hc : getConn s c with
    | none => exact ⟨hC, hA⟩
    | some conn =>
      have hun : conn.userId = none := by
        have hg2 := hg
        simp only [identGuard, hc, beq_iff_eq] at hg2
        exact hg2
      have hself : connsLookup (connsUpdate s.conns c { conn with userId := some u }) c
          = some { conn with userId := some u } := by
        rw [connsLookup_update]
        simp only [getConn] at hc
        simp [hc]
      have hother : ∀ x, ¬x = c →
          connsLookup (connsUpdate s.conns c { conn with userId := some u }) x
            = getConn s x := by
        intro x hx
        rw [connsLookup_update]
        simp only [hx, and_false, if_false]
        rfl
      dsimp only
      constructor
      · intro u2 cs hcs c' hc'
        have hcs2 : clientsLookupL (clientsSet s.clients u
            ((clientsLookupL s.clients u).getD [] ++ [c])) u2 = some cs := hcs
        rw [clientsLookupL_set] at hcs2
        by_cases huu : u2 = u
        · subst huu
          rw [if_pos rfl] at hcs2
          cases hcs2
          by_cases hcc : c' = c
          · subst hcc
            refine ⟨{ conn with userId := some u2 }, ?_, rfl⟩
            show connsLookup (connsUpdate s.conns c' _) c' = _
            exact hself
          · rcases List.mem_append.mp hc' with hmem | hmem
            · cases hlu : clientsLookupL s.clients u2 with
              | none =>
                rw [hlu] at hmem
                simp at hmem
              | some oldl =>
                rw [hlu] at hmem
                simp only [Option.getD_some] at hmem
                obtain ⟨conn', hconn', hu'⟩ := hC u2 oldl hlu c' hmem
                refine ⟨conn', ?_, hu'⟩
                show connsLookup (connsUpdate s.conns c _) c' = _
                rw [hother c' hcc]
                exact hconn'
            · simp at hmem
              exact absurd hmem hcc
        · rw [if_neg huu] at hcs2
          obtain ⟨conn', hconn', hu'⟩ := hC u2 cs hcs2 c' hc'
          by_cases hcc : c' = c
          · subst hcc
            rw [hc] at hconn'
            cases hconn'
            rw [hun] at hu'
            cases hu'
          · refine ⟨conn', ?_, hu'⟩
            show connsLookup (connsUpdate s.conns c _) c' = _
            rw [hother c' hcc]
            exact hconn'
      · intro c' conn' r hconn' hchat'
        by_cases hcc : c' = c
        · subst hcc
          have h2 : connsLookup (connsUpdate s.conns c' { conn with userId := some u }) c'
              = some conn' := hconn'
          rw [hself] at h2
          cases h2
          obtain ⟨uid0, v1, v2, ha, hb, hc3⟩ := hA c' conn r hc hchat'
          rw [hun] at ha
          cases ha
        · have h2 : connsLookup (connsUpdate s.conns c { conn with userId := some u }) c'
              = some conn' := hconn'
          rw [hother c' hcc] at h2
          obtain ⟨uid0, v1, v2, ha, hb, hc3⟩ := hA c' conn' r h2 hchat'
          exact ⟨uid0, v1, v2, ha, hb, hc3⟩
  | select c chatId last =>
    show InvClients (stepSelect s c chatId last) ∧ InvAuth (stepSelect s c chatId last)
    unfold stepSelect
    cases hc : getConn s c with
    | none => exact ⟨hC, hA⟩
    | some conn =>
      dsimp only
      by_cases hrt : truthy chatId = true
      · rw [if_neg (by simp [hrt])]
        cases huid : conn.userId with
        | none => exact ⟨hC, hA⟩
        | some uid =>
          dsimp only
          by_cases hut : truthy uid = true
          · rw [if_neg (by simp [hut])]
            cases hcl : clientsLookup s uid with
            | none => exact ⟨hC, hA⟩
            | some userConns =>
              dsimp only
              cases hfind : userConns.find? (takeoverPred s c chatId) with
              | none =>
                dsimp only
                cases hpart : getChatParticipants s.chats chatId with
                | none => exact ⟨hC, hA⟩
                | some p =>
                  obtain ⟨u1, u2⟩ := p
                  dsimp only
                  by_cases hne : uid ≠ u1 ∧ uid ≠ u2
                  · rw [if_pos hne]
                    exact ⟨hC, hA⟩
                  · rw [if_neg hne]
                    have hor : uid = u1 ∨ uid = u2 := by tauto
                    exact invC4_selectAuth s c uid chatId last conn hc huid u1 u2
                      hpart hor hC hA
              | some old =>
                dsimp only
                rw [takeoverBlock_chats]
                obtain ⟨hC1, hA1⟩ := invC4_takeover s old hC hA
                have hold : takeoverPred s c chatId old = true := List.find?_some hfind
                have hoc : ¬old = c := by
                  simp only [takeoverPred, Bool.and_eq_true, decide_eq_true_eq] at hold
                  exact hold.1
                have hc1 : getConn (takeoverBlock s old) c = some conn := by
                  rw [getConn_takeover_other s old c (fun hh => hoc hh.symm)]
                  exact hc
                cases hpart : getChatParticipants s.chats chatId with
                | none => exact ⟨hC1, hA1⟩
                | some p =>
                  obtain ⟨u1, u2⟩ := p
                  dsimp only
                  by_cases hne : uid ≠ u1 ∧ uid ≠ u2
                  · rw [if_pos hne]
                    exact ⟨hC1, hA1⟩
                  · rw [if_neg hne]
                    have hor : uid = u1 ∨ uid = u2 := by tauto
                    refine invC4_selectAuth (takeoverBlock s old) c uid chatId last
                      conn hc1 huid u1 u2 ?_ hor hC1 hA1
                    rw [takeoverBlock_chats]
                    exact hpart
          · rw [if_pos hut]
            exact ⟨hC, hA⟩
      · rw [if_pos hrt]
        exact ⟨hC, hA⟩
  | sendMessage c text =>
    show InvClients (stepSend s c text) ∧ InvAuth (stepSend s c text)
    unfold stepSend
    cases hc : getConn s c with
    | none => exact ⟨hC, hA⟩
    | some conn =>
      dsimp only
      by_cases h1 : truthyO conn.userId = true
      · rw [if_neg (by simp [h1])]
        by_cases h2 : truthyO conn.chatId = true
        · rw [if_neg (by simp [h2])]
          cases huid : conn.userId with
          | none => exact ⟨hC, hA⟩
          | some uid =>
            cases hch : conn.chatId with
            | none => exact ⟨hC, hA⟩
            | some chatId => exact ⟨hC, hA⟩
        · rw [if_pos h2]
          exact ⟨hC, hA⟩
      · rw [if_pos h1]
        exact ⟨hC, hA⟩
  | close c =>
    show InvClients (stepClose s c) ∧ InvAuth (stepClose s c)
    unfold stepClose
    cases hc : getConn s c with
    | none => exact ⟨hC, hA⟩
    | some conn =>
      have hself : ∀ cc : Conn, connsLookup (connsUpdate s.conns c cc) c
          = some cc := by
        intro cc
        rw [connsLookup_update]
        simp only [getConn] at hc
        simp [hc]
      have hother : ∀ (cc : Conn) (x : Nat), ¬x = c →
          connsLookup (connsUpdate s.conns c cc) x = getConn s x := by
        intro cc x hx
        rw [connsLookup_update]
        simp only [hx, and_false, if_false]
        rfl
      have hmain : ∀ (st : SysState) (uo : Option Nat), conn.userId = uo →
          st.conns = connsUpdate s.conns c
            { conn with userId := uo, isOpen := false } →
          st.chats = s.chats →
          (∀ u cs, clientsLookupL st.clients u = some cs →
            ∃ cs0, clientsLookupL s.clients u = some cs0 ∧ cs ⊆ cs0) →
          InvClients st ∧ InvAuth st := by
        intro st uo huo hcs hch hcl2
        constructor
        · intro u cs hcsu c' hc'
          obtain ⟨cs0, hcs0, hsub⟩ := hcl2 u cs hcsu
          obtain ⟨conn', hconn', hu'⟩ := hC u cs0 hcs0 c' (hsub hc')
          by_cases hcc : c' = c
          · subst hcc
            rw [hc] at hconn'
            cases hconn'
            refine ⟨{ conn with userId := uo, isOpen := false }, ?_, ?_⟩
            · show connsLookup st.conns c' = _
              rw [hcs]
              exact hself _
            · show uo = some u
              rw [← huo]
              exact hu'
          · refine ⟨conn', ?_, hu'⟩
            show connsLookup st.conns c' = _
            rw [hcs, hother _ c' hcc]
            exact hconn'
        · intro c' conn' r hconn' hchat'
          by_cases hcc : c' = c
          · subst hcc
            have h2 : connsLookup st.conns c' = some conn' := hconn'
            rw [hcs, hself _] at h2
            cases h2
            obtain ⟨uid0, v1, v2, ha, hb, hc3⟩ := hA c' conn r hc hchat'
            refine ⟨uid0, v1, v2, ?_, ?_, hc3⟩
            · show uo = some uid0
              rw [← huo]
              exact ha
            · show getChatParticipants st.chats r = _
              rw [hch]
              exact hb
          · have h2 : connsLookup st.conns c' = some conn' := hconn'
            rw [hcs, hother _ c' hcc] at h2
            obtain ⟨uid0, v1, v2, ha, hb, hc3⟩ := hA c' conn' r h2 hchat'
            refine ⟨uid0, v1, v2, ha, ?_, hc3⟩
            show getChatParticipants st.chats r = _
            rw [hch]
            exact hb
      dsimp only
      by_cases h1 : truthyO conn.userId = true
      · rw [if_neg (by simp [h1])]
        cases huid : conn.userId with
        | none =>
          exact hmain _ none huid rfl rfl (fun u cs h => ⟨cs, h, fun _ m => m⟩)
        | some uid =>
          dsimp only
          cases hcl : clientsLookup
              (setConn s c { conn with userId := some uid, isOpen := false })
              uid with
          | none =>
            exact hmain _ (some uid) huid rfl rfl
              (fun u cs h => ⟨cs, h, fun _ m => m⟩)
          | some userConns =>
            dsimp only
            by_cases hrem : (userConns.filter (fun x => ¬x = c)).length > 0
            · rw [if_pos hrem]
              refine hmain _ (some uid) huid rfl rfl ?_
              intro u cs h
              have h2 : clientsLookupL (clientsSet s.clients uid
                  (userConns.filter (fun x => ¬x = c))) u = some cs := h
              rw [clientsLookupL_set] at h2
              by_cases huu : u = uid
              · subst huu
                rw [if_pos rfl] at h2
                cases h2
                exact ⟨userConns, hcl, fun x hx => List.mem_of_mem_filter hx⟩
              · rw [if_neg huu] at h2
                exact ⟨cs, h2, fun _ m => m⟩
            · rw [if_neg hrem]
              refine hmain _ (some uid) huid rfl rfl ?_
              intro u cs h
              have h2 : clientsLookupL (clientsDelete s.clients uid) u
                  = some cs := h
              rw [clientsLookupL_delete] at h2
              by_cases huu : u = uid
              · rw [if_pos huu] at h2
                cases h2
              · rw [if_neg huu] at h2
                exact ⟨cs, h2, fun _ m => m⟩
      · rw [if_pos h1]
        exact hmain _ conn.userId rfl rfl rfl (fun u cs h => ⟨cs, h, fun _ m => m⟩)

theorem invC4_grun (ops : List Op) : ∀ (s s2 : SysState),
    GRun identGuard s ops s2 → InvClients s ∧ InvAuth s →
    InvClients s2 ∧ InvAuth s2 := by
  induction ops with
  | nil =>
    intro s s2 h hI
    cases h
    exact hI
  | cons op ops ih =>
    intro s s2 h hI
    cases h with
    | cons _ _ _ _ hg htail => exact ih _ _ htail (invC4_step s op hg hI.1 hI.2)

theorem invClients_init (chats : List ChatRec) (users : List UserRow)
    (messages : List MsgRow) : InvClients (initState chats users messages) := by
  intro u cs hcs
  simp [initState, clientsLookup, clientsLookupL] at hcs

theorem invAuth_init (chats : List ChatRec) (users : List UserRow)
    (messages : List MsgRow) : InvAuth (initState chats users messages) := by
  intro c conn r hconn
  simp [initState, getConn, connsLookup] at hconn

/-- Claim C4: in any state reachable under the specified identification
protocol (`identGuard`: a socket identifies at most once, from the
unidentified state), a `chat.select` whose requester's identity is not
among the room's two participants — or names a room with no authorization
record — is a complete no-op: the resulting state equals the original one,
so there is no membership change, no per-connection state change, and no
fact published. -/
theorem C4_unauthorized_select_noop (chats : List ChatRec)
    (users : List UserRow) (messages : List MsgRow) (ops : List Op)
    (s : SysState) (hrun : GRun identGuard (initState chats users messages) ops s)
    (c chatId last : Nat) (conn : Conn) (uid : Nat)
    (hc : getConn s c = some conn) (huid : conn.userId = some uid)
    (hauth : ∀ u1 u2, getChatParticipants s.chats chatId = some (u1, u2) →
      uid ≠ u1 ∧ uid ≠ u2) :
    step s (.select c chatId last) = s := by
  obtain ⟨hC, hA⟩ := invC4_grun ops _ s hrun
    ⟨invClients_init chats users messages, invAuth_init chats users messages⟩
  show stepSelect s c chatId last = s
  unfold stepSelect
  rw [hc]
  dsimp only
  by_cases hrt : truthy chatId = true
  · rw [if_neg (by simp [hrt])]
    rw [huid]
    dsimp only
    by_cases hut : truthy uid = true
    · rw [if_neg (by simp [hut])]
      cases hcl : clientsLookup s uid with
      | none => rfl
      | some userConns =>
        dsimp only
        have hfind : userConns.find? (takeoverPred s c chatId) = none := by
          cases hf : userConns.find? (takeoverPred s c chatId) with
          | none => rfl
          | some old =>
            exfalso
            have hmem : old ∈ userConns := List.mem_of_find?_eq_some hf
            have hpred : takeoverPred s c chatId old = true := List.find?_some hf
            obtain ⟨conn2, hconn2, hu2⟩ := hC uid userConns hcl old hmem
            have hch2 : conn2.chatId = some chatId := by
              simp only [takeoverPred, hconn2, Bool.and_eq_true,
                decide_eq_true_eq, beq_iff_eq] at hpred
              exact hpred.2
            obtain ⟨uid2, v1, v2, ha, hb, hcor⟩ := hA old conn2 chatId hconn2 hch2
            rw [hu2] at ha
            cases ha
            have hne := hauth v1 v2 hb
            rcases hcor with h | h
            · exact hne.1 h
            · exact hne.2 h
        rw [hfind]
        dsimp only
        cases hpart : getChatParticipants s.chats chatId with
        | none => rfl
        | some p =>
          obtain ⟨u1, u2⟩ := p
          dsimp only
          rw [if_pos (hauth u1 u2 hpart)]
    · rw [if_pos hut]
  · rw [if_pos hrt]

/-- Witness for `C4_unauthorized_select_noop`: after `connect; identify 3`
(a guarded run — the socket identifies from the unidentified state), user 3
selecting room 1, whose participants are users 1 and 2, changes nothing. -/
theorem C4_unauthorized_select_noop_witness :
    step (run (initState [⟨1, 1, 2⟩] [] []) [.connect 1, .identify 1 3])
        (.select 1 1 0)
      = run (initState [⟨1, 1, 2⟩] [] []) [.connect 1, .identify 1 3] := by
  have hrun : GRun identGuard (initState [⟨1, 1, 2⟩] [] [])
      [.connect 1, .identify 1 3]
      (run (initState [⟨1, 1, 2⟩] [] []) [.connect 1, .identify 1 3]) := by
    refine GRun.cons _ _ _ _ (by decide) ?_
    refine GRun.cons _ _ _ _ (by decide) ?_
    exact GRun.nil _
  refine C4_unauthorized_select_noop [⟨1, 1, 2⟩] [] [] _ _ hrun 1 1 0
    ⟨some 3, none, none, true⟩ 3 rfl rfl ?_
  intro u1 u2 h
  have hx : getChatParticipants
      (run (initState [⟨1, 1, 2⟩] [] []) [.connect 1, .identify 1 3]).chats 1
      = some (1, 2) := rfl
  have h2 : some ((1 : Nat), (2 : Nat)) = some (u1, u2) := hx.symm.trans h
  injection h2 with h3
  injection h3 with h4 h5
  subst h4
  subst h5
  exact ⟨by decide, by decide⟩


/-! ## Claim C8: room takeover

Two connections share identity `U`; the old one is active in room `R`.
When the new one selects `R`, the takeover block of `chat.select` fires:
the old socket gets the direct `chat.session.revoked` push, the optimistic
delivery of the `chat-revoked-by-new-tab` fact runs the Dispatcher's
revocation handler, which removes the old socket from `R` with
`cleanRoom = false` (so `R`'s entry survives even when the old socket was
its only member), and the authorized tail then subscribes the new
socket. -/

/-- C8: with two connections sharing identity `uid` and the old one active
in room `chatId` (it is found by the takeover scan and is a member of the
room), the new connection's `chat.select` pushes `chat.session.revoked` to
the old connection, removes the old connection from the room's member set,
keeps the room's membership entry alive at the takeover point even when the
old connection was its only member (`cleanRoom = false`), and ends with the
new connection a member of the room. -/
theorem C8_room_takeover (s : SysState)
    (cNew cOld chatId last uid u1 u2 : Nat)
    (userConns : List Nat) (connNew : Conn)
    (hcn : getConn s cNew = some connNew)
    (huid : connNew.userId = some uid)
    (hrt : truthy chatId = true)
    (hut : truthy uid = true)
    (hcl : clientsLookup s uid = some userConns)
    (hfind : userConns.find? (takeoverPred s cNew chatId) = some cOld)
    (hpart : getChatParticipants s.chats chatId = some (u1, u2))
    (hor : uid = u1 ∨ uid = u2)
    (hmem : cOld ∈ membersOf s.rooms chatId) :
    (cOld, "chat.session.revoked") ∈ (step s (.select cNew chatId last)).outbox ∧
    cOld ∉ membersOf (step s (.select cNew chatId last)).rooms chatId ∧
    (roomsLookup (takeoverBlock s cOld).rooms chatId).isSome = true ∧
    cNew ∈ membersOf (step s (.select cNew chatId last)).rooms chatId := by
  have hpred : takeoverPred s cNew chatId cOld = true := List.find?_some hfind
  have hone : ¬cOld = cNew := by
    simp only [takeoverPred, Bool.and_eq_true, decide_eq_true_eq] at hpred
    exact hpred.1
  obtain ⟨connOld, holdc, hcho⟩ :
      ∃ co, getConn s cOld = some co ∧ co.chatId = some chatId := by
    simp only [takeoverPred, Bool.and_eq_true, decide_eq_true_eq] at hpred
    cases hgo : getConn s cOld with
    | none =>
      rw [hgo] at hpred
      exact absurd hpred.2 (by simp)
    | some co =>
      rw [hgo] at hpred
      refine ⟨co, rfl, ?_⟩
      simpa using hpred.2
  have hch0 : ¬chatId = 0 := by simpa [truthy] using hrt
  have hstep : step s (.select cNew chatId last)
      = selectAuthorized (takeoverBlock s cOld) cNew uid chatId last := by
    show stepSelect s cNew chatId last = _
    unfold stepSelect
    rw [hcn]
    dsimp only
    rw [if_neg (by simp [hrt])]
    rw [huid]
    dsimp only
    rw [if_neg (by simp [hut])]
    rw [hcl]
    dsimp only
    rw [hfind]
    dsimp only
    rw [takeoverBlock_chats, hpart]
    dsimp only
    rw [if_neg (by tauto)]
  have hcn2 : getConn (takeoverBlock s cOld) cNew = some connNew := by
    rw [getConn_takeover_other s cOld cNew (fun hh => hone hh.symm)]
    exact hcn
  have hrooms : (takeoverBlock s cOld).rooms
      = unsubscribeRoom s.rooms cOld (some chatId) false := by
    rw [takeoverBlock_rooms s cOld connOld holdc, hcho]
    rw [if_pos (show truthyO (some chatId) = true from by
      simpa [truthyO, truthy] using hrt)]
  obtain ⟨ms, hms⟩ : ∃ ms, roomsLookup s.rooms chatId = some ms := by
    cases hq : roomsLookup s.rooms chatId with
    | some ms => exact ⟨ms, rfl⟩
    | none =>
      exfalso
      have h2 : cOld ∈ membersOf s.rooms chatId := hmem
      unfold membersOf at h2
      rw [hq] at h2
      simp at h2
  refine ⟨?_, ?_, ?_, ?_⟩
  · rw [hstep]
    apply selectAuthorized_outbox_mem
    rw [takeoverBlock_outbox s cOld connOld holdc]
    simp
  · rw [hstep]
    intro hmem2
    rw [selectAuthorized_rooms _ _ _ _ _ connNew hcn2] at hmem2
    rw [mem_subscribe] at hmem2
    rcases hmem2 with ⟨_, heq⟩ | hmem2
    · exact hone heq
    · rw [hrooms] at hmem2
      exact not_mem_unsub_self s.rooms cOld chatId false hch0 hmem2
  · rw [hrooms]
    unfold unsubscribeRoom
    dsimp only
    rw [if_neg hch0, hms]
    dsimp only
    rw [if_neg (by simp)]
    rw [roomsLookup_update]
    rw [if_pos ⟨by simp [hms], rfl⟩]
    rfl
  · rw [hstep]
    rw [selectAuthorized_rooms _ _ _ _ _ connNew hcn2]
    rw [mem_subscribe]
    exact Or.inl ⟨rfl, rfl⟩

/-- The concrete takeover scenario for the `C8_room_takeover` witness:
socket 1 identifies as user 5 and enters room 1 (participants 5 and 6, so
the selection is authorized), then socket 2 connects and also identifies as
user 5. -/
def c8State : SysState :=
  run (initState [⟨1, 5, 6⟩] [] [])
    [.connect 1, .identify 1 5, .select 1 1 0, .connect 2, .identify 2 5]

/-- Witness for `C8_room_takeover`: in the concrete two-tab scenario,
socket 2 selecting room 1 revokes socket 1's session, removes socket 1 from
room 1, keeps room 1's entry alive although socket 1 was its only member,
and subscribes socket 2. -/
theorem C8_room_takeover_witness :
    ((1 : Nat), "chat.session.revoked") ∈ (step c8State (.select 2 1 0)).outbox ∧
    (1 : Nat) ∉ membersOf (step c8State (.select 2 1 0)).rooms 1 ∧
    (roomsLookup (takeoverBlock c8State 1).rooms 1).isSome = true ∧
    (2 : Nat) ∈ membersOf (step c8State (.select 2 1 0)).rooms 1 :=
  C8_room_takeover c8State 2 1 1 0 5 5 6 [1, 2] ⟨some 5, none, none, true⟩
    (by decide) (by decide) (by decide) (by decide) (by decide) (by decide)
    (by decide) (Or.inl rfl) (by decide)

end Kafky
